import Mathlib

/-!
Shallow embedding of the MasseyRamanujan repository core:
the resumable Cartesian product domain enumerator
(src/ramanujan/poly_domains/CartesianProductPolyDomain.py) and the
factorial reduction tester (src/ramanujan/enumerators/FREnumerator.py),
together with theorems settling the frozen claims about them.

Conventions used throughout:
- Python integers are Lean Int, Python lists of ints are List Int.
- Coefficient tuples are List Int; an axis range [lo, hi] is a pair
  of Int bounds, inclusive on both ends.
- Fallible Python code (StopIteration, UnboundLocalError, NameError)
  is modelled with Except / Option results.
-/

/-! ## Coefficient ranges and Cartesian products -/

/-- Integer interval [lo, hi] as an explicit value list, mirroring the
Python expression range(coef[0], coef[1] + 1) used by
expand_coef_range_to_full_domain. -/
def expandRange (lo hi : ℤ) : List ℤ :=
  (List.range (hi + 1 - lo).toNat).map (fun k => lo + Int.ofNat k)

/-- Mirrors CartesianProductPolyDomain.expand_coef_range_to_full_domain:
every axis range is materialized as its explicit value list. -/
def expandAxes (axes : List (ℤ × ℤ)) : List (List ℤ) :=
  axes.map (fun r => expandRange r.1 r.2)

/-- Nested loop over two lists, outer loop first: the shape shared by
itertools.product and by the nested yield loops of iter_polys. -/
def pairsOf : List α → List β → (α → β → γ) → List γ
  | [], _, _ => []
  | p :: P, S, f => S.map (f p) ++ pairsOf P S f

/-- Mirrors itertools.product over a list of axis value lists: the first
axis varies slowest, exactly as the Python iterator yields tuples. -/
def pyProduct : List (List ℤ) → List (List ℤ)
  | [] => [[]]
  | xs :: rest => pairsOf xs (pyProduct rest) (fun x t => x :: t)

/-- Mirrors CartesianProductPolyDomain._goto_checkpoint: items are
consumed from the iterator until the checkpoint itself has been
consumed, so the remaining iterator is the suffix strictly after the
first occurrence of the checkpoint.  (When the checkpoint does not
occur at all the Python loop exhausts the iterator and raises; the
claims only ever pass checkpoints that are members of the product.) -/
def dropThrough [DecidableEq α] : List α → α → List α
  | [], _ => []
  | x :: rest, loc => if x = loc then rest else dropThrough rest loc

/-- Orientation of an emitted pair: iter_polys always yields pairs as
(a tuple, b tuple), whichever series is the primary loop. -/
def orient (primaryIsA : Bool) (p s : List ℤ) : List ℤ × List ℤ :=
  if primaryIsA then (p, s) else (s, p)

/-- First value of every axis: the default checkpoint used when no
checkpoint file is present, see _setup_metadata. -/
def freshCk (axes : List (ℤ × ℤ)) : List ℤ :=
  axes.map (fun r => r.1)

/-- Mirrors CartesianProductPolyDomain.iter_polys as a pure list of the
yielded pairs.  The primary (outer) series is chosen by the caller; the
checkpoint pair (ckA, ckB) is re-yielded first, then the remaining
secondary values under the checkpointed primary value, then every later
primary value with a fresh full secondary product.  Checkpoint dumps do
not change the yielded sequence and are modelled separately. -/
def iterPolys (primaryIsA : Bool) (aAxes bAxes : List (ℤ × ℤ))
    (ckA ckB : List ℤ) : List (List ℤ × List ℤ) :=
  let pnDomain := pyProduct (expandAxes (if primaryIsA then aAxes else bAxes))
  let snDomain := pyProduct (expandAxes (if primaryIsA then bAxes else aAxes))
  let pnCk := if primaryIsA then ckA else ckB
  let snCk := if primaryIsA then ckB else ckA
  let snRest := dropThrough snDomain snCk
  let pnRest := dropThrough pnDomain pnCk
  (ckA, ckB) ::
    (snRest.map (fun s => orient primaryIsA pnCk s) ++
      pairsOf pnRest snDomain (orient primaryIsA))

/-- Axis validity: every range is a nonempty interval. -/
def axesValid (axes : List (ℤ × ℤ)) : Prop :=
  ∀ r ∈ axes, r.1 ≤ r.2

/-! ## Constructor clamp of the lead a axis (claim C4) -/

/-- Mirrors the a coefficient range setup in
CartesianProductPolyDomain.__init__: the single incoming range is
replicated for every coefficient, and when an_leading_coef_positive
holds and the lower bound of the last replicated range is nonpositive,
the lower bound of the range at index 0 is set to 1. -/
def initACoefRange (a_deg : ℕ) (a_coef_range : ℤ × ℤ)
    (an_leading_coef_positive : Bool) : List (ℤ × ℤ) :=
  let base := List.replicate (a_deg + 1) a_coef_range
  if an_leading_coef_positive = true ∧ (base.getLastD a_coef_range).1 ≤ 0 then
    base.set 0 (1, (base.headD a_coef_range).2)
  else base

/-- Mirrors the static method get_poly_an_lead_coef: the lead
coefficient of an a tuple is the entry at index 0. -/
def get_poly_an_lead_coef (an_coefs : List ℤ) : Option ℤ :=
  an_coefs.head?

/-! ## Compact polynomial degree helper (claim C5) -/

/-- Loop body of _get_compact_poly_deg: walk the coefficients from the
front, counting the degree down past zero coefficients; falling off the
end of the loop returns no value (Python returns None). -/
def compactDegLoop : List ℤ → ℤ → Option ℤ
  | [], _ => none
  | c :: rest, deg => if c ≠ 0 then some deg else compactDegLoop rest (deg - 1)

/-- Mirrors the static method _get_compact_poly_deg. -/
def _get_compact_poly_deg (coeffs : List ℤ) : Option ℤ :=
  compactDegLoop coeffs ((coeffs.length : ℤ) - 1)

/-! ## The shadowed get_bn_degree methods (claim C10) -/

/-- Python name error raised when a free variable of a function body is
neither a parameter, a local, a global nor a builtin. -/
inductive PyNameError where
  | undefinedSelf
deriving DecidableEq

/-- Names bound inside the bodies of both get_bn_degree static methods:
only the single parameter bn_coefs.  The identifiers self and an_coefs
that their bodies mention are not among them. -/
def get_bn_degree_boundNames : List String :=
  [("bn_coefs")]

/-- Body of the first get_bn_degree definition,
self._get_compact_poly_deg(bn_coefs): evaluating the name self fails
in a static method; were it defined, the call result would be discarded
and the method would fall through returning None. -/
def get_bn_degree_first (bn_coefs : List ℤ) : Except PyNameError (Option ℤ) :=
  if ("self") ∈ get_bn_degree_boundNames then
    (fun _ => Except.ok none) (_get_compact_poly_deg bn_coefs)
  else Except.error PyNameError.undefinedSelf

/-- Body of the second get_bn_degree definition,
self._get_compact_poly_deg(an_coefs): the name self again fails first
(an_coefs is equally unbound), and even a successful call would be
discarded, falling through to None. -/
def get_bn_degree_second (bn_coefs : List ℤ) : Except PyNameError (Option ℤ) :=
  if ("self") ∈ get_bn_degree_boundNames ∧ ("an_coefs") ∈ get_bn_degree_boundNames then
    (fun _ => Except.ok none) (_get_compact_poly_deg bn_coefs)
  else Except.error PyNameError.undefinedSelf

/-- The class body binds the name get_bn_degree twice; the second
binding wins, so calls dispatch to the second definition. -/
def get_bn_degree : List ℤ → Except PyNameError (Option ℤ) :=
  get_bn_degree_second

/-! ## Claim C4: which a axis gets clamped -/

/-- Helper: the last element of a nonempty replicated list defaults to
the replicated value. -/
theorem getLastD_replicate (x : α) : ∀ n, (List.replicate n x).getLastD x = x
  | 0 => rfl
  | n + 1 => by
      rw [List.replicate_succ, List.getLastD_cons]
      exact getLastD_replicate x n

/-- C4 counterexample: for a degree 1 over [-3,3] with the positive lead
convention, the constructor leaves the last a axis range untouched and
clamps the range at index 0 instead, contradicting the claim that
a_coef_range[-1] becomes [1,3] while all other ranges keep the original
bounds. -/
theorem c4_counterexample :
    (initACoefRange 1 (-3, 3) true).getLast? ≠ some (1, 3) ∧
    (initACoefRange 1 (-3, 3) true).getLast? = some (-3, 3) ∧
    (initACoefRange 1 (-3, 3) true).head? = some (1, 3) := by
  decide

/-- C4 amended: when an_leading_coef_positive is set and the incoming
lower bound is nonpositive, the clamp raises the lower bound of the
range at index 0 to 1 (this is the lead axis as used by
get_poly_an_lead_coef, which reads index 0), and every other a axis
keeps the original bounds. -/
theorem c4_lead_clamp (d : ℕ) (lo hi : ℤ) (hlo : lo ≤ 0) :
    initACoefRange d (lo, hi) true = (1, hi) :: List.replicate d (lo, hi) ∧
    (∀ (c : ℤ) (cs : List ℤ), get_poly_an_lead_coef (c :: cs) = some c) := by
  constructor
  · unfold initACoefRange
    rw [if_pos]
    · rw [List.replicate_succ]
      rfl
    · refine ⟨rfl, ?_⟩
      rw [getLastD_replicate]
      exact hlo
  · intro c cs
    rfl

/-- C4 witness: the amended statement at degree 1 over [-3,3]. -/
theorem c4_witness :
    initACoefRange 1 (-3, 3) true = (1, 3) :: List.replicate 1 (-3, 3) ∧
    (∀ (c : ℤ) (cs : List ℤ), get_poly_an_lead_coef (c :: cs) = some c) :=
  c4_lead_clamp 1 (-3) 3 (by decide)

/-! ## Claim C5: degree of the zero polynomial -/

/-- Helper: the degree loop returns no value on an all zero list. -/
theorem compactDegLoop_all_zero :
    ∀ (l : List ℤ) (deg : ℤ), (∀ c ∈ l, c = 0) → compactDegLoop l deg = none
  | [], _, _ => rfl
  | c :: rest, deg, h => by
      have hc : c = 0 := h c (by simp)
      simp only [compactDegLoop, hc]
      simpa using compactDegLoop_all_zero rest (deg - 1) fun x hx => h x (by simp [hx])

/-- Helper: with a nonzero entry present, the degree loop returns the
start degree minus the number of leading zeros. -/
theorem compactDegLoop_has_nonzero :
    ∀ (l : List ℤ) (deg : ℤ), (∃ c ∈ l, c ≠ 0) →
      compactDegLoop l deg =
        some (deg - ((l.takeWhile (fun c => c == 0)).length : ℤ))
  | [], _, h => by simp at h
  | c :: rest, deg, h => by
      by_cases hc : c = 0
      · subst hc
        have hrest : ∃ x ∈ rest, x ≠ 0 := by
          rcases h with ⟨x, hx, hxne⟩
          rcases List.mem_cons.mp hx with rfl | hxr
          · exact absurd rfl hxne
          · exact ⟨x, hxr, hxne⟩
        have ih := compactDegLoop_has_nonzero rest (deg - 1) hrest
        have htw : List.takeWhile (fun c => c == 0) ((0 : ℤ) :: rest) =
            (0 : ℤ) :: List.takeWhile (fun c => c == 0) rest :=
          List.takeWhile_cons_of_pos (by decide)
        simp only [compactDegLoop, ne_eq, not_true_eq_false, if_false, ih, htw,
          List.length_cons]
        congr 1
        push_cast
        ring
      · have htw : List.takeWhile (fun c => c == 0) (c :: rest) = [] :=
          List.takeWhile_cons_of_neg (by simpa using hc)
        simp [compactDegLoop, hc, htw]

/-- C5 counterexample: on the all zero list [0] the helper returns no
value (Python None) rather than the degree 0 the claim asserts. -/
theorem c5_counterexample :
    _get_compact_poly_deg [0] = none ∧ _get_compact_poly_deg [0] ≠ some 0 := by
  decide

/-- C5 amended: on an all zero (or empty) coefficient list the helper
returns no value (Python falls off the loop and returns None); with at
least one nonzero entry it returns length minus one minus the number of
leading zero coefficients. -/
theorem c5_compact_deg (coeffs : List ℤ) :
    ((∀ c ∈ coeffs, c = 0) → _get_compact_poly_deg coeffs = none) ∧
    ((∃ c ∈ coeffs, c ≠ 0) →
      _get_compact_poly_deg coeffs =
        some ((coeffs.length : ℤ) - 1 -
          ((coeffs.takeWhile (fun c => c == 0)).length : ℤ))) := by
  constructor
  · intro h
    exact compactDegLoop_all_zero coeffs _ h
  · intro h
    rw [_get_compact_poly_deg, compactDegLoop_has_nonzero coeffs _ h]

/-- C5 witness: the amended statement on [0, 2, 0]. -/
theorem c5_witness : _get_compact_poly_deg [0, 2, 0] = some 1 := by
  have h := (c5_compact_deg [0, 2, 0]).2 (by decide)
  simpa using h

/-! ## Claim C10: get_bn_degree always raises -/

/-- C10: every call of get_bn_degree dispatches to the second (shadowing)
definition, whose body mentions the unbound name self, so it raises a
name error; the first definition would fail the same way, and neither
body returns the value of _get_compact_poly_deg. -/
theorem c10_get_bn_degree (bn_coefs : List ℤ) :
    get_bn_degree bn_coefs = Except.error PyNameError.undefinedSelf ∧
    get_bn_degree_first bn_coefs = Except.error PyNameError.undefinedSelf ∧
    get_bn_degree bn_coefs ≠ Except.ok (_get_compact_poly_deg bn_coefs) := by
  have h2 : ¬(("self") ∈ get_bn_degree_boundNames ∧
      ("an_coefs") ∈ get_bn_degree_boundNames) := by decide
  have h1 : ¬(("self") ∈ get_bn_degree_boundNames) := by decide
  refine ⟨?_, ?_, ?_⟩
  · simp [get_bn_degree, get_bn_degree_second, if_neg h2]
  · simp [get_bn_degree_first, if_neg h1]
  · simp [get_bn_degree, get_bn_degree_second, if_neg h2]

/-! ## The factorial reduction tester check_for_fr (claims C6, C7, C9)

The Python function drives the three term recursion over unbounded
integers and, every burst_number steps, appends a log GCD estimate
computed with mpmath arbitrary precision arithmetic.  The embedding
keeps the recursion over Int exactly, and abstracts the sampled
estimate log(gcd(p, q)) / i + an_deg * (1 - log i) as a parameter
sample : Int -> Int -> Nat -> K into an arbitrary linear ordered field,
so every theorem below holds for any valuation of the samples,
in particular for the exact real valued one. -/

/-- Mirrors the CONVERGENCE_THRESHOLD module constant (0.1). -/
def CONVERGENCE_THRESHOLD (K : Type) [LinearOrderedField K] : K := 1 / 10

/-- Ways check_for_fr can fail to return a pair: the seeding next()
calls raise StopIteration on an exhausted stream, and the final
return statement raises UnboundLocalError when the loop never bound
its index variable. -/
inductive FrError where
  | stopIteration
  | unboundLocal
deriving DecidableEq

/-- Loop state of check_for_fr: the two trailing numerator and
denominator values, the next sampling step, and the burst samples
gathered so far with the most recent sample first (the Python list
calculated_values holds them oldest first; only the last three are
ever read). -/
structure FrState (K : Type) where
  prevQ : ℤ
  q : ℤ
  prevP : ℤ
  p : ℤ
  nextGcd : ℕ
  vals : List K
deriving DecidableEq

/-- One iteration of the check_for_fr loop at index i: a zero b term
returns (False, i) at once; otherwise the recursion advances, and on a
sampling step the new estimate is appended and the divergence check
(three or more samples, strictly growing last gap) then the convergence
check (two or more samples, last gap under the threshold) may return.
The inl result is the state carried to the next iteration. -/
def frStep [LinearOrderedField K] (sample : ℤ → ℤ → ℕ → K) (burst : ℕ)
    (st : FrState K) (a b : ℤ) (i : ℕ) : FrState K ⊕ (Bool × ℕ) :=
  if b = 0 then Sum.inr (false, i)
  else
    let q2 := a * st.q + b * st.prevQ
    let p2 := a * st.p + b * st.prevP
    if i = st.nextGcd then
      let v := sample p2 q2 i
      match st.vals with
      | v2 :: v3 :: older =>
          if |v2 - v| > |v2 - v3| then Sum.inr (false, i)
          else if |v2 - v| < CONVERGENCE_THRESHOLD K then Sum.inr (true, i)
          else Sum.inl ⟨st.q, q2, st.p, p2, st.nextGcd + burst, v :: v2 :: v3 :: older⟩
      | [v2] =>
          if |v2 - v| < CONVERGENCE_THRESHOLD K then Sum.inr (true, i)
          else Sum.inl ⟨st.q, q2, st.p, p2, st.nextGcd + burst, [v, v2]⟩
      | [] => Sum.inl ⟨st.q, q2, st.p, p2, st.nextGcd + burst, [v]⟩
    else Sum.inl ⟨st.q, q2, st.p, p2, st.nextGcd, st.vals⟩

/-- The enumerated for loop of check_for_fr over the zipped remainder of
the two streams.  When the zipped stream is exhausted the Python
function returns (False, i) with i still bound to the final loop index;
when the loop never ran, i is unbound and the return raises. -/
def frLoop [LinearOrderedField K] (sample : ℤ → ℤ → ℕ → K) (burst : ℕ) :
    List (ℤ × ℤ) → ℕ → FrState K → Except FrError (Bool × ℕ)
  | [], i, _ => if i = 0 then Except.error FrError.unboundLocal
                else Except.ok (false, i - 1)
  | ab :: rest, i, st =>
      match frStep sample burst st ab.1 ab.2 i with
      | Sum.inl st2 => frLoop sample burst rest (i + 1) st2
      | Sum.inr r => Except.ok r

/-- Initial loop state: prev_q = 0, q = 1, prev_p = 1, p = a0, first
sampling step max(burst_number, min_iters), no samples yet. -/
def frInit (K : Type) (a0 : ℤ) (burst minIters : ℕ) : FrState K :=
  ⟨0, 1, 1, a0, if burst ≥ minIters then burst else minIters, []⟩

/-- Mirrors check_for_fr from FREnumerator.py: seed p with the first a
term, discard the first b term, then run the enumerated loop over the
zipped remainders. -/
def check_for_fr [LinearOrderedField K] (sample : ℤ → ℤ → ℕ → K)
    (an bn : List ℤ) (burst minIters : ℕ) : Except FrError (Bool × ℕ) :=
  match an, bn with
  | [], _ => Except.error FrError.stopIteration
  | _ :: _, [] => Except.error FrError.stopIteration
  | a0 :: anRest, _b0 :: bnRest =>
      frLoop sample burst (anRest.zip bnRest) 0 (frInit K a0 burst minIters)

/-- Pure replay of the loop over a list of steps with no decision
taken: returns the state reached, or none as soon as any iteration
returns a decision.  Used to phrase the claims that talk about a run
that has reached a given step without deciding. -/
def frAdvance [LinearOrderedField K] (sample : ℤ → ℤ → ℕ → K) (burst : ℕ) :
    List (ℤ × ℤ) → ℕ → FrState K → Option (FrState K)
  | [], _, st => some st
  | ab :: rest, i, st =>
      match frStep sample burst st ab.1 ab.2 i with
      | Sum.inl st2 => frAdvance sample burst rest (i + 1) st2
      | Sum.inr _ => none

/-- Helper: a decision free replay of a prefix lets the loop resume
after it with the index advanced by the prefix length. -/
theorem frLoop_append [LinearOrderedField K] (sample : ℤ → ℤ → ℕ → K)
    (burst : ℕ) :
    ∀ (l1 l2 : List (ℤ × ℤ)) (i : ℕ) (st st2 : FrState K),
      frAdvance sample burst l1 i st = some st2 →
      frLoop sample burst (l1 ++ l2) i st =
        frLoop sample burst l2 (i + l1.length) st2
  | [], l2, i, st, st2, h => by
      simp [frAdvance] at h
      simp [h]
  | ab :: rest, l2, i, st, st2, h => by
      simp only [frAdvance] at h
      cases hstep : frStep sample burst st ab.1 ab.2 i with
      | inl st3 =>
          rw [hstep] at h
          simp only at h
          have ih := frLoop_append sample burst rest l2 (i + 1) st3 st2 h
          have harith : i + (ab :: rest).length = i + 1 + rest.length := by
            simp only [List.length_cons]
            omega
          rw [harith]
          simpa only [List.cons_append, frLoop, hstep] using ih
      | inr r =>
          rw [hstep] at h
          simp at h

/-- Helper: a list indexed successfully at i splits as the element at i
consed onto the remaining suffix. -/
theorem dropAt_cons : ∀ (l : List α) (i : ℕ) (x : α),
    l.get? i = some x → l.drop i = x :: l.drop (i + 1)
  | [], i, x, h => by simp at h
  | y :: rest, 0, x, h => by
      simp only [List.get?] at h
      cases h
      simp
  | y :: rest, i + 1, x, h => by
      simp only [List.get?] at h
      simpa using dropAt_cons rest i x h

/-- C6: a zero b term met at loop index i, in a run that has reached
that iteration without taking any decision, makes check_for_fr return
the normal pair (False, i) rather than raise. -/
theorem c6_zero_b [LinearOrderedField K] (sample : ℤ → ℤ → ℕ → K)
    (burst minIters : ℕ) (a0 b0 ai : ℤ) (anRest bnRest : List ℤ) (i : ℕ)
    (st : FrState K)
    (hreach : frAdvance sample burst ((anRest.zip bnRest).take i) 0
        (frInit K a0 burst minIters) = some st)
    (hzero : (anRest.zip bnRest).get? i = some (ai, 0)) :
    check_for_fr sample (a0 :: anRest) (b0 :: bnRest) burst minIters =
      Except.ok (false, i) := by
  have hlt : i < (anRest.zip bnRest).length := by
    rcases List.get?_eq_some.mp hzero with ⟨h, _⟩
    exact h
  have hdrop := dropAt_cons (anRest.zip bnRest) i _ hzero
  have hlen : ((anRest.zip bnRest).take i).length = i := by
    rw [List.length_take]
    omega
  have hrun := frLoop_append sample burst ((anRest.zip bnRest).take i)
      ((anRest.zip bnRest).drop i) 0 (frInit K a0 burst minIters) st hreach
  rw [List.take_append_drop] at hrun
  simp only [check_for_fr]
  rw [hrun, hlen, hdrop]
  simp [frLoop, frStep]

/-- C6 witness: streams 1,1,1 and 5,3,0 hit the zero b term at loop
index 1 and the tester reports (False, 1). -/
theorem c6_witness :
    check_for_fr (fun _ _ _ => (0 : ℚ)) [1, 1, 1] [5, 3, 0] 200 1 =
      Except.ok (false, 1) :=
  c6_zero_b (fun _ _ _ => (0 : ℚ)) 200 1 1 5 1 [1, 1] [3, 0] 1
    ⟨1, 1, 1, 4, 200, []⟩ (by decide) (by decide)

/-- Adjacent burst samples (most recent first) all have gaps of at
least the convergence threshold: the invariant maintained by every
iteration that did not return a decision, because a smaller gap would
have triggered the convergence return at that earlier sample. -/
def gapsOK [LinearOrderedField K] : List K → Prop
  | x :: y :: rest => CONVERGENCE_THRESHOLD K ≤ |y - x| ∧ gapsOK (y :: rest)
  | _ => True

/-- Helper: one decision free step preserves the sample gap invariant. -/
theorem frStep_gapsOK [LinearOrderedField K] (sample : ℤ → ℤ → ℕ → K)
    (burst : ℕ) (st st2 : FrState K) (a b : ℤ) (i : ℕ)
    (hg : gapsOK st.vals)
    (h : frStep sample burst st a b i = Sum.inl st2) :
    gapsOK st2.vals := by
  simp only [frStep] at h
  split at h
  · simp at h
  · split at h
    · split at h
      · rename_i v2 v3 older heq
        split at h
        · simp at h
        · split at h
          · simp at h
          · rename_i hgt hlt
            injection h with h
            subst h
            refine ⟨le_of_not_lt hlt, ?_⟩
            rw [heq] at hg
            exact hg
      · rename_i v2 heq
        split at h
        · simp at h
        · rename_i hlt
          injection h with h
          subst h
          exact ⟨le_of_not_lt hlt, trivial⟩
      · injection h with h
        subst h
        trivial
    · injection h with h
      subst h
      exact hg

/-- Helper: a decision free replay preserves the sample gap invariant. -/
theorem frAdvance_gapsOK [LinearOrderedField K] (sample : ℤ → ℤ → ℕ → K)
    (burst : ℕ) :
    ∀ (l : List (ℤ × ℤ)) (i : ℕ) (st st2 : FrState K),
      gapsOK st.vals → frAdvance sample burst l i st = some st2 →
      gapsOK st2.vals
  | [], i, st, st2, hg, h => by
      simp only [frAdvance, Option.some.injEq] at h
      subst h
      exact hg
  | ab :: rest, i, st, st2, hg, h => by
      simp only [frAdvance] at h
      cases hstep : frStep sample burst st ab.1 ab.2 i with
      | inl st3 =>
          rw [hstep] at h
          simp only at h
          exact frAdvance_gapsOK sample burst rest (i + 1) st3 st2
            (frStep_gapsOK sample burst st st3 ab.1 ab.2 i hg hstep) h
      | inr r =>
          rw [hstep] at h
          simp at h

/-- C7: whenever a run reaches a sampling step with at least one
earlier sample and the gap between the previous sample and the newly
computed one is below the convergence threshold, check_for_fr returns
(True, i) at that very step: the divergence check cannot fire first,
because reaching this sample forces every earlier adjacent gap to be at
least the threshold. -/
theorem c7_convergence [LinearOrderedField K] (sample : ℤ → ℤ → ℕ → K)
    (burst minIters : ℕ) (a0 b0 ai bi : ℤ) (anRest bnRest : List ℤ) (i : ℕ)
    (st : FrState K) (v2 : K) (older : List K)
    (hreach : frAdvance sample burst ((anRest.zip bnRest).take i) 0
        (frInit K a0 burst minIters) = some st)
    (hstep : (anRest.zip bnRest).get? i = some (ai, bi))
    (hbi : bi ≠ 0)
    (hsampling : i = st.nextGcd)
    (hvals : st.vals = v2 :: older)
    (hgap : |v2 - sample (ai * st.p + bi * st.prevP)
        (ai * st.q + bi * st.prevQ) i| < CONVERGENCE_THRESHOLD K) :
    check_for_fr sample (a0 :: anRest) (b0 :: bnRest) burst minIters =
      Except.ok (true, i) := by
  have hlt : i < (anRest.zip bnRest).length := by
    rcases List.get?_eq_some.mp hstep with ⟨h, _⟩
    exact h
  have hdrop := dropAt_cons (anRest.zip bnRest) i _ hstep
  have hlen : ((anRest.zip bnRest).take i).length = i := by
    rw [List.length_take]
    omega
  have hrun := frLoop_append sample burst ((anRest.zip bnRest).take i)
      ((anRest.zip bnRest).drop i) 0 (frInit K a0 burst minIters) st hreach
  rw [List.take_append_drop] at hrun
  have hinv : gapsOK st.vals :=
    frAdvance_gapsOK sample burst _ 0 (frInit K a0 burst minIters) st
      trivial hreach
  have hfr : frStep sample burst st ai bi i = Sum.inr (true, i) := by
    cases older with
    | nil =>
        simp only [frStep, if_neg hbi, if_pos hsampling, hvals]
        rw [if_pos (hsampling ▸ hgap)]
    | cons v3 older2 =>
        have hinv2 : CONVERGENCE_THRESHOLD K ≤ |v2 - v3| := by
          rw [hvals] at hinv
          rw [abs_sub_comm]
          exact hinv.1
        have hle : |v2 - sample (ai * st.p + bi * st.prevP)
            (ai * st.q + bi * st.prevQ) i| ≤ |v2 - v3| :=
          le_of_lt (lt_of_lt_of_le hgap hinv2)
        simp only [frStep, if_neg hbi, if_pos hsampling, hvals]
        rw [if_neg (not_lt.mpr (hsampling ▸ hle)), if_pos (hsampling ▸ hgap)]
  simp only [check_for_fr]
  rw [hrun, hlen, hdrop, Nat.zero_add]
  simp only [frLoop, hfr]

/-- C7 witness: with burst 1 and a constant sample valuation the second
sample has gap 0 < 1/10 and the run over streams of ones returns
(True, 2) at that step. -/
theorem c7_witness :
    check_for_fr (fun _ _ _ => (0 : ℚ)) [1, 1, 1, 1] [1, 1, 1, 1] 1 1 =
      Except.ok (true, 2) :=
  c7_convergence (fun _ _ _ => (0 : ℚ)) 1 1 1 1 1 1 [1, 1, 1] [1, 1, 1] 2
    ⟨1, 2, 2, 3, 2, [0]⟩ 0 [] (by decide) (by decide) (by decide)
    (by decide) (by decide) (by norm_num [CONVERGENCE_THRESHOLD])

/-- C9: when the seeding succeeds but the zipped remainder of the two
streams is empty (the a stream or the b stream held exactly one term),
the loop never binds its index and the final return raises an unbound
local error instead of producing a pair; an entirely empty a stream
already fails at the seeding next() call with StopIteration. -/
theorem c9_short_streams [LinearOrderedField K] (sample : ℤ → ℤ → ℕ → K)
    (burst minIters : ℕ) (an bn : List ℤ) :
    (an = [] →
      check_for_fr sample an bn burst minIters =
        Except.error FrError.stopIteration) ∧
    (an ≠ [] → bn ≠ [] → (an.length = 1 ∨ bn.length = 1) →
      check_for_fr sample an bn burst minIters =
        Except.error FrError.unboundLocal) := by
  constructor
  · rintro rfl
    rfl
  · intro ha hb hlen
    cases an with
    | nil => exact absurd rfl ha
    | cons a0 anRest =>
      cases bn with
      | nil => exact absurd rfl hb
      | cons b0 bnRest =>
        have hzip : anRest.zip bnRest = [] := by
          rcases hlen with h1 | h1
          · have h2 : anRest = [] := by
              simpa using h1
            simp [h2]
          · have h2 : bnRest = [] := by
              simpa using h1
            simp [h2]
        simp only [check_for_fr, hzip]
        rfl

/-- C9 witness: a one term a stream raises the unbound local error and
an empty a stream raises StopIteration. -/
theorem c9_witness :
    check_for_fr (fun _ _ _ => (0 : ℚ)) [1] [1, 2] 200 1 =
      Except.error FrError.unboundLocal ∧
    check_for_fr (fun _ _ _ => (0 : ℚ)) ([] : List ℤ) [3] 200 1 =
      Except.error FrError.stopIteration :=
  ⟨(c9_short_streams (fun _ _ _ => (0 : ℚ)) 200 1 [1] [1, 2]).2
      (by decide) (by decide) (by decide),
   (c9_short_streams (fun _ _ _ => (0 : ℚ)) 200 1 [] [3]).1 rfl⟩

/-! ## Checkpoint file handling in _setup_metadata (claim C8) -/

/-- Content of a checkpoint file: either a well formed json object with
the two coordinate lists, or bytes that json.load rejects. -/
inductive FileContent where
  | valid (a b : List ℤ)
  | corrupt (raw : String)
deriving DecidableEq

/-- Result of the checkpoint loading part of _setup_metadata: the in
memory checkpoint pair and the file system after any quarantine
rename. -/
structure SetupResult where
  checkpoint : List ℤ × List ℤ
  fs : String → Option FileContent

/-- Mirrors the checkpoint handling in _setup_metadata.  The default
checkpoint is the first value of every axis; a present well formed file
replaces it; a present file that fails to load is renamed by appending
the .corrupted suffix and the default stays.  The file name is passed
in as computed by the source (cache prefix plus an md5 hex digest of
the two range lists; the digest itself is opaque to the claims). -/
def setup_metadata (aAxes bAxes : List (ℤ × ℤ)) (name : String)
    (fs : String → Option FileContent) : SetupResult :=
  match fs name with
  | none => ⟨(freshCk aAxes, freshCk bAxes), fs⟩
  | some (FileContent.valid a b) => ⟨(a, b), fs⟩
  | some (FileContent.corrupt raw) =>
      ⟨(freshCk aAxes, freshCk bAxes),
        fun m =>
          if m = name then none
          else if m = name ++ (".corrupted") then some (FileContent.corrupt raw)
          else fs m⟩

/-- Helper: appending the quarantine suffix always changes the name. -/
theorem append_corrupted_ne (name : String) : name ++ (".corrupted") ≠ name := by
  intro h
  have hlen := congrArg String.length h
  rw [String.length_append] at hlen
  have h10 : (".corrupted").length = 10 := rfl
  omega

/-- C8: when the checkpoint file is present but corrupt, construction
quarantines it under the .corrupted suffix, preserving its content and
leaving nothing at the original name, and the in memory checkpoint is
the domain origin, the first value of every axis. -/
theorem c8_corrupt_checkpoint (aAxes bAxes : List (ℤ × ℤ)) (name : String)
    (fs : String → Option FileContent) (raw : String)
    (hcorrupt : fs name = some (FileContent.corrupt raw)) :
    (setup_metadata aAxes bAxes name fs).checkpoint =
      (freshCk aAxes, freshCk bAxes) ∧
    (setup_metadata aAxes bAxes name fs).fs name = none ∧
    (setup_metadata aAxes bAxes name fs).fs (name ++ (".corrupted")) =
      some (FileContent.corrupt raw) := by
  refine ⟨?_, ?_, ?_⟩
  · simp [setup_metadata, hcorrupt]
  · simp [setup_metadata, hcorrupt]
  · simp [setup_metadata, hcorrupt, append_corrupted_ne name]

/-- C8 witness: a concrete file system holding a corrupt checkpoint
file for a one axis domain on each side. -/
theorem c8_witness :
    (setup_metadata [(0, 2)] [(1, 3)] ("ck.json")
        (fun m => if m = ("ck.json") then some (FileContent.corrupt ("junk"))
                  else none)).checkpoint = (freshCk [(0, 2)], freshCk [(1, 3)]) ∧
    (setup_metadata [(0, 2)] [(1, 3)] ("ck.json")
        (fun m => if m = ("ck.json") then some (FileContent.corrupt ("junk"))
                  else none)).fs ("ck.json") = none ∧
    (setup_metadata [(0, 2)] [(1, 3)] ("ck.json")
        (fun m => if m = ("ck.json") then some (FileContent.corrupt ("junk"))
                  else none)).fs (("ck.json") ++ (".corrupted")) =
      some (FileContent.corrupt ("junk")) :=
  c8_corrupt_checkpoint [(0, 2)] [(1, 3)] ("ck.json") _ ("junk") (by simp)

/-! ## Structure of the fresh enumeration (claim C1) -/

/-- Helper: a nonempty integer interval starts at its lower bound. -/
theorem expandRange_cons (lo hi : ℤ) (h : lo ≤ hi) :
    expandRange lo hi = lo :: expandRange (lo + 1) hi := by
  have h1 : (hi + 1 - lo).toNat = (hi + 1 - (lo + 1)).toNat + 1 := by omega
  rw [expandRange, h1, List.range_succ_eq_map, List.map_cons, List.map_map,
    expandRange]
  congr 1
  · simp
  · apply List.map_congr_left
    intro a _
    simp only [Function.comp_apply, Int.ofNat_eq_coe]
    push_cast
    ring

/-- Helper: interval value lists carry no duplicates. -/
theorem nodup_expandRange (lo hi : ℤ) : (expandRange lo hi).Nodup := by
  rw [expandRange]
  refine List.Nodup.map ?_ (List.nodup_range _)
  intro a b hab
  have hab2 : lo + Int.ofNat a = lo + Int.ofNat b := hab
  exact Int.ofNat.inj (add_left_cancel hab2)

/-- Helper: membership in a nested loop list. -/
theorem mem_pairsOf {f : α → β → γ} :
    ∀ {P : List α} {S : List β} {x : γ},
      x ∈ pairsOf P S f ↔ ∃ p ∈ P, ∃ s ∈ S, f p s = x
  | [], S, x => by simp [pairsOf]
  | p :: P, S, x => by
      simp only [pairsOf, List.mem_append, List.mem_map,
        mem_pairsOf (P := P), List.mem_cons]
      constructor
      · rintro (⟨s, hs, hx⟩ | ⟨q, hq, s, hs, hx⟩)
        · exact ⟨p, Or.inl rfl, s, hs, hx⟩
        · exact ⟨q, Or.inr hq, s, hs, hx⟩
      · rintro ⟨q, rfl | hq, s, hs, hx⟩
        · exact Or.inl ⟨s, hs, hx⟩
        · exact Or.inr ⟨q, hq, s, hs, hx⟩

/-- Helper: a nested loop over duplicate free lists with a pairwise
injective body emits no duplicates. -/
theorem nodup_pairsOf {f : α → β → γ}
    (hf : ∀ p1 s1 p2 s2, f p1 s1 = f p2 s2 → p1 = p2 ∧ s1 = s2) :
    ∀ {P : List α} {S : List β}, P.Nodup → S.Nodup → (pairsOf P S f).Nodup
  | [], S, _, _ => by simp [pairsOf]
  | p :: P, S, hP, hS => by
      rw [pairsOf, List.nodup_append]
      refine ⟨?_, ?_, ?_⟩
      · refine List.Nodup.map ?_ hS
        intro s1 s2 h12
        exact (hf p s1 p s2 h12).2
      · exact nodup_pairsOf hf (List.nodup_cons.mp hP).2 hS
      · intro x hx1 hx2
        rcases List.mem_map.mp hx1 with ⟨s, _, hx⟩
        rcases mem_pairsOf.mp hx2 with ⟨q, hq, t, _, hx2e⟩
        have := hf p s q t (by rw [hx, hx2e])
        exact (List.nodup_cons.mp hP).1 (this.1 ▸ hq)

/-- Helper: products of duplicate free axis lists are duplicate free. -/
theorem pyProduct_nodup :
    ∀ {ls : List (List ℤ)}, (∀ l ∈ ls, l.Nodup) → (pyProduct ls).Nodup
  | [], _ => by simp [pyProduct]
  | xs :: rest, h => by
      rw [pyProduct]
      refine nodup_pairsOf ?_ (h xs (by simp)) (pyProduct_nodup fun l hl => h l (by simp [hl]))
      intro p1 s1 p2 s2 h12
      exact ⟨(List.cons.injEq _ _ _ _ ▸ h12).1, (List.cons.injEq _ _ _ _ ▸ h12).2⟩

/-- Helper: over valid axes the product is nonempty and starts at the
tuple of lower bounds, the fresh checkpoint. -/
theorem pyProduct_head :
    ∀ {axes : List (ℤ × ℤ)}, axesValid axes →
      ∃ t, pyProduct (expandAxes axes) = freshCk axes :: t
  | [], _ => ⟨[], rfl⟩
  | (lo, hi) :: rest, h => by
      have hlh : lo ≤ hi := h (lo, hi) (by simp)
      have hrest : axesValid rest := fun r hr => h r (List.mem_cons_of_mem _ hr)
      rcases pyProduct_head hrest with ⟨t2, ht2⟩
      have hstep : pyProduct (expandAxes ((lo, hi) :: rest)) =
          pairsOf (expandRange lo hi) (pyProduct (expandAxes rest))
            (fun x t => x :: t) := rfl
      rw [hstep, expandRange_cons lo hi hlh, ht2]
      exact ⟨_, rfl⟩

/-- Helper: consuming the head via the goto loop leaves the tail. -/
theorem dropThrough_cons_self [DecidableEq α] (x : α) (t : List α) :
    dropThrough (x :: t) x = t := by
  simp [dropThrough]

/-- Helper: on a duplicate free list, the goto loop aimed at the entry
at index i leaves exactly the suffix after i. -/
theorem dropThrough_at [DecidableEq α] :
    ∀ (l : List α), l.Nodup → ∀ (i : ℕ) (h : i < l.length),
      dropThrough l (l.get ⟨i, h⟩) = l.drop (i + 1)
  | [], _, i, h => by simp at h
  | x :: rest, hnd, 0, h => by
      simp [dropThrough]
  | x :: rest, hnd, i + 1, h => by
      have hmem : rest.get ⟨i, by simpa using h⟩ ∈ rest := List.get_mem _ _ _
      have hne : x ≠ rest.get ⟨i, by simpa using h⟩ := by
        intro hx
        exact (List.nodup_cons.mp hnd).1 (hx ▸ hmem)
      simp only [List.get_cons_succ, dropThrough, if_neg hne, List.drop_succ_cons]
      exact dropThrough_at rest (List.nodup_cons.mp hnd).2 i (by simpa using h)

/-- Helper: length of a nested loop list. -/
theorem pairsOf_length {f : α → β → γ} :
    ∀ (P : List α) (S : List β), (pairsOf P S f).length = P.length * S.length
  | [], S => by simp [pairsOf]
  | p :: P, S => by
      simp [pairsOf, pairsOf_length P S]
      ring

/-- Helper: dropping past a whole left part of an append. -/
theorem drop_append_length :
    ∀ (A B : List α) (m : ℕ), (A ++ B).drop (A.length + m) = B.drop m
  | [], B, m => by simp
  | a :: A, B, m => by
      simp only [List.cons_append, List.length_cons]
      rw [show A.length + 1 + m = (A.length + m) + 1 from by omega,
        List.drop_succ_cons]
      exact drop_append_length A B m

/-- Helper: dropping whole outer blocks plus part of the next block. -/
theorem pairsOf_drop {f : α → β → γ} :
    ∀ (P : List α) (ip : ℕ) (hip : ip < P.length) (S : List β) (is : ℕ),
      is ≤ S.length →
      (pairsOf P S f).drop (ip * S.length + is) =
        (S.drop is).map (f (P.get ⟨ip, hip⟩)) ++ pairsOf (P.drop (ip + 1)) S f
  | [], ip, hip, S, is, his => by simp at hip
  | p :: P, 0, hip, S, is, his => by
      simp only [pairsOf, Nat.zero_mul, Nat.zero_add, List.get]
      rw [List.drop_append_of_le_length (by simpa using his), List.map_drop]
      simp
  | p :: P, ip + 1, hip, S, is, his => by
      have harith : (ip + 1) * S.length + is =
          (List.map (f p) S).length + (ip * S.length + is) := by
        simp only [List.length_map]
        ring
      rw [pairsOf, harith, drop_append_length,
        pairsOf_drop (f := f) P ip (by simpa using hip) S is his]
      simp
theorem drop_eq_get_cons : ∀ (l : List α) (i : ℕ) (h : i < l.length),
    l.drop i = l.get ⟨i, h⟩ :: l.drop (i + 1)
  | x :: rest, 0, h => by simp
  | x :: rest, i + 1, h => by
      simp only [List.drop_succ_cons, List.get_cons_succ]
      exact drop_eq_get_cons rest i (by simpa using h)

theorem iterPolys_fresh (primary : Bool) (aAxes bAxes : List (ℤ × ℤ))
    (ha : axesValid aAxes) (hb : axesValid bAxes) :
    iterPolys primary aAxes bAxes (freshCk aAxes) (freshCk bAxes) =
      pairsOf (pyProduct (expandAxes (if primary then aAxes else bAxes)))
        (pyProduct (expandAxes (if primary then bAxes else aAxes)))
        (orient primary) := by
  cases primary with
  | false =>
      obtain ⟨tP, hP⟩ := pyProduct_head hb
      obtain ⟨tS, hS⟩ := pyProduct_head ha
      simp only [iterPolys, Bool.false_eq_true, if_false]
      rw [hP, hS, dropThrough_cons_self, dropThrough_cons_self]
      simp [pairsOf, orient]
  | true =>
      obtain ⟨tP, hP⟩ := pyProduct_head ha
      obtain ⟨tS, hS⟩ := pyProduct_head hb
      simp only [iterPolys, if_true]
      rw [hP, hS, dropThrough_cons_self, dropThrough_cons_self]
      simp [pairsOf, orient]
/-- The fresh, uninterrupted enumeration of the domain. -/
def freshRun (primary : Bool) (aAxes bAxes : List (ℤ × ℤ)) :
    List (List ℤ × List ℤ) :=
  iterPolys primary aAxes bAxes (freshCk aAxes) (freshCk bAxes)

theorem orient_inj (primary : Bool) :
    ∀ p1 s1 p2 s2, orient primary p1 s1 = orient primary p2 s2 →
      p1 = p2 ∧ s1 = s2 := by
  intro p1 s1 p2 s2 h
  cases primary
  · simp only [orient, Bool.false_eq_true, if_false, Prod.mk.injEq] at h
    exact ⟨h.2, h.1⟩
  · simp only [orient, if_true, Prod.mk.injEq] at h
    exact ⟨h.1, h.2⟩

theorem pyProduct_expand_nodup (axes : List (ℤ × ℤ)) :
    (pyProduct (expandAxes axes)).Nodup := by
  apply pyProduct_nodup
  intro l hl
  rcases List.mem_map.mp hl with ⟨r, _, rfl⟩
  exact nodup_expandRange r.1 r.2

theorem freshRun_nodup (primary : Bool) (aAxes bAxes : List (ℤ × ℤ))
    (ha : axesValid aAxes) (hb : axesValid bAxes) :
    (freshRun primary aAxes bAxes).Nodup := by
  rw [freshRun, iterPolys_fresh primary aAxes bAxes ha hb]
  exact nodup_pairsOf (orient_inj primary) (pyProduct_expand_nodup _)
    (pyProduct_expand_nodup _)
/-- Helper: the head form of a suffix of a nested loop list. -/
theorem pairsOf_drop_cons {f : α → β → γ} (P : List α) (S : List β)
    (ip is : ℕ) (hip : ip < P.length) (his : is < S.length) :
    (pairsOf P S f).drop (ip * S.length + is) =
      f (P.get ⟨ip, hip⟩) (S.get ⟨is, his⟩) ::
        ((S.drop (is + 1)).map (f (P.get ⟨ip, hip⟩)) ++
          pairsOf (P.drop (ip + 1)) S f) := by
  rw [pairsOf_drop P ip hip S is (le_of_lt his),
    drop_eq_get_cons S is his, List.map_cons, List.cons_append]

/-- Helper: the entry of a nested loop list at a block decomposed
index. -/
theorem pairsOf_get {f : α → β → γ} (P : List α) (S : List β)
    (ip is : ℕ) (hip : ip < P.length) (his : is < S.length)
    (hj : ip * S.length + is < (pairsOf P S f).length) :
    (pairsOf P S f).get ⟨ip * S.length + is, hj⟩ =
      f (P.get ⟨ip, hip⟩) (S.get ⟨is, his⟩) := by
  have h1 := drop_eq_get_cons (pairsOf P S f) (ip * S.length + is) hj
  rw [pairsOf_drop_cons P S ip is hip his] at h1
  exact (List.cons.injEq _ _ _ _ ▸ h1).1.symm
/-- Helper: restarting iter_polys from the checkpoint pair that the
fresh run emits at position j replays exactly the suffix of the fresh
run from position j on. -/
theorem iterPolys_from_get (primary : Bool) (aAxes bAxes : List (ℤ × ℤ))
    (ha : axesValid aAxes) (hb : axesValid bAxes) (j : ℕ)
    (hj : j < (freshRun primary aAxes bAxes).length) :
    iterPolys primary aAxes bAxes
        ((freshRun primary aAxes bAxes).get ⟨j, hj⟩).1
        ((freshRun primary aAxes bAxes).get ⟨j, hj⟩).2 =
      (freshRun primary aAxes bAxes).drop j := by
  cases primary with
  | true =>
      have hout : freshRun true aAxes bAxes =
          pairsOf (pyProduct (expandAxes aAxes)) (pyProduct (expandAxes bAxes))
            (orient true) := by
        rw [freshRun]
        exact iterPolys_fresh true aAxes bAxes ha hb
      set P := pyProduct (expandAxes aAxes) with hPdef
      set S := pyProduct (expandAxes bAxes) with hSdef
      obtain ⟨tS, hS⟩ := pyProduct_head hb
      have hSpos : 0 < S.length := by
        rw [hSdef, hS]
        simp
      have hlen : (freshRun true aAxes bAxes).length = P.length * S.length := by
        rw [hout, pairsOf_length]
      have hjlt : j < P.length * S.length := hlen ▸ hj
      have hip : j / S.length < P.length := (Nat.div_lt_iff_lt_mul hSpos).mpr hjlt
      have his : j % S.length < S.length := Nat.mod_lt _ hSpos
      have hidx : (j / S.length) * S.length + j % S.length = j := by
        rw [Nat.mul_comm]
        exact Nat.div_add_mod j S.length
      have hdrop : (freshRun true aAxes bAxes).drop j =
          orient true (P.get ⟨j / S.length, hip⟩) (S.get ⟨j % S.length, his⟩) ::
            ((S.drop (j % S.length + 1)).map
                (orient true (P.get ⟨j / S.length, hip⟩)) ++
              pairsOf (P.drop (j / S.length + 1)) S (orient true)) := by
        rw [hout]
        conv_lhs => rw [← hidx]
        exact pairsOf_drop_cons P S _ _ hip his
      have h1 := drop_eq_get_cons (freshRun true aAxes bAxes) j hj
      rw [hdrop] at h1
      have hget : (freshRun true aAxes bAxes).get ⟨j, hj⟩ =
          orient true (P.get ⟨j / S.length, hip⟩) (S.get ⟨j % S.length, his⟩) :=
        ((List.cons.injEq _ _ _ _).mp h1.symm).1
      rw [hget, hdrop]
      show iterPolys true aAxes bAxes
          (P.get ⟨j / S.length, hip⟩) (S.get ⟨j % S.length, his⟩) = _
      have hiter : iterPolys true aAxes bAxes
          (P.get ⟨j / S.length, hip⟩) (S.get ⟨j % S.length, his⟩) =
          (P.get ⟨j / S.length, hip⟩, S.get ⟨j % S.length, his⟩) ::
            ((dropThrough S (S.get ⟨j % S.length, his⟩)).map
                (fun s => orient true (P.get ⟨j / S.length, hip⟩) s) ++
              pairsOf (dropThrough P (P.get ⟨j / S.length, hip⟩)) S
                (orient true)) := rfl
      rw [hiter, dropThrough_at S (pyProduct_expand_nodup bAxes) _ his,
        dropThrough_at P (pyProduct_expand_nodup aAxes) _ hip]
      rfl
  | false =>
      have hout : freshRun false aAxes bAxes =
          pairsOf (pyProduct (expandAxes bAxes)) (pyProduct (expandAxes aAxes))
            (orient false) := by
        rw [freshRun]
        exact iterPolys_fresh false aAxes bAxes ha hb
      set P := pyProduct (expandAxes bAxes) with hPdef
      set S := pyProduct (expandAxes aAxes) with hSdef
      obtain ⟨tS, hS⟩ := pyProduct_head ha
      have hSpos : 0 < S.length := by
        rw [hSdef, hS]
        simp
      have hlen : (freshRun false aAxes bAxes).length = P.length * S.length := by
        rw [hout, pairsOf_length]
      have hjlt : j < P.length * S.length := hlen ▸ hj
      have hip : j / S.length < P.length := (Nat.div_lt_iff_lt_mul hSpos).mpr hjlt
      have his : j % S.length < S.length := Nat.mod_lt _ hSpos
      have hidx : (j / S.length) * S.length + j % S.length = j := by
        rw [Nat.mul_comm]
        exact Nat.div_add_mod j S.length
      have hdrop : (freshRun false aAxes bAxes).drop j =
          orient false (P.get ⟨j / S.length, hip⟩) (S.get ⟨j % S.length, his⟩) ::
            ((S.drop (j % S.length + 1)).map
                (orient false (P.get ⟨j / S.length, hip⟩)) ++
              pairsOf (P.drop (j / S.length + 1)) S (orient false)) := by
        rw [hout]
        conv_lhs => rw [← hidx]
        exact pairsOf_drop_cons P S _ _ hip his
      have h1 := drop_eq_get_cons (freshRun false aAxes bAxes) j hj
      rw [hdrop] at h1
      have hget : (freshRun false aAxes bAxes).get ⟨j, hj⟩ =
          orient false (P.get ⟨j / S.length, hip⟩) (S.get ⟨j % S.length, his⟩) :=
        ((List.cons.injEq _ _ _ _).mp h1.symm).1
      rw [hget, hdrop]
      show iterPolys false aAxes bAxes
          (S.get ⟨j % S.length, his⟩) (P.get ⟨j / S.length, hip⟩) = _
      have hiter : iterPolys false aAxes bAxes
          (S.get ⟨j % S.length, his⟩) (P.get ⟨j / S.length, hip⟩) =
          (S.get ⟨j % S.length, his⟩, P.get ⟨j / S.length, hip⟩) ::
            ((dropThrough S (S.get ⟨j % S.length, his⟩)).map
                (fun s => orient false (P.get ⟨j / S.length, hip⟩) s) ++
              pairsOf (dropThrough P (P.get ⟨j / S.length, hip⟩)) S
                (orient false)) := rfl
      rw [hiter, dropThrough_at S (pyProduct_expand_nodup aAxes) _ his,
        dropThrough_at P (pyProduct_expand_nodup bAxes) _ hip]
      rfl
/-- C1: a domain constructed with no pre existing checkpoint file
enumerates, for either choice of primary series, exactly the Cartesian
product of the two tuple products, in primary major secondary minor
order, each pair oriented as (a tuple, b tuple); the emitted list has
no duplicates and its members are exactly the product pairs. -/
theorem c1_fresh_run_exhaustive (primary : Bool) (aAxes bAxes : List (ℤ × ℤ))
    (name : String) (ha : axesValid aAxes) (hb : axesValid bAxes) :
    (iterPolys primary aAxes bAxes
        ((setup_metadata aAxes bAxes name (fun _ => none)).checkpoint).1
        ((setup_metadata aAxes bAxes name (fun _ => none)).checkpoint).2 =
      (if primary then
        pairsOf (pyProduct (expandAxes aAxes)) (pyProduct (expandAxes bAxes))
          (fun p s => (p, s))
       else
        pairsOf (pyProduct (expandAxes bAxes)) (pyProduct (expandAxes aAxes))
          (fun p s => (s, p)))) ∧
    (iterPolys primary aAxes bAxes
        ((setup_metadata aAxes bAxes name (fun _ => none)).checkpoint).1
        ((setup_metadata aAxes bAxes name (fun _ => none)).checkpoint).2).Nodup ∧
    (∀ pa pb,
      (pa, pb) ∈ iterPolys primary aAxes bAxes
          ((setup_metadata aAxes bAxes name (fun _ => none)).checkpoint).1
          ((setup_metadata aAxes bAxes name (fun _ => none)).checkpoint).2 ↔
        pa ∈ pyProduct (expandAxes aAxes) ∧ pb ∈ pyProduct (expandAxes bAxes)) := by
  have hck : (setup_metadata aAxes bAxes name (fun _ => none)).checkpoint =
      (freshCk aAxes, freshCk bAxes) := rfl
  have hfresh := iterPolys_fresh primary aAxes bAxes ha hb
  refine ⟨?_, ?_, ?_⟩
  · rw [hck]
    cases primary
    · simpa only [Bool.false_eq_true, if_false] using hfresh
    · simpa only [if_true] using hfresh
  · rw [hck]
    exact freshRun_nodup primary aAxes bAxes ha hb
  · intro pa pb
    rw [hck]
    show (pa, pb) ∈ freshRun primary aAxes bAxes ↔ _
    rw [freshRun, hfresh]
    cases primary
    · simp only [Bool.false_eq_true, if_false]
      rw [mem_pairsOf]
      constructor
      · rintro ⟨p, hp, s, hs, h⟩
        simp only [orient, Bool.false_eq_true, if_false, Prod.mk.injEq] at h
        exact ⟨h.1 ▸ hs, h.2 ▸ hp⟩
      · rintro ⟨hpa, hpb⟩
        exact ⟨pb, hpb, pa, hpa, rfl⟩
    · simp only [if_true]
      rw [mem_pairsOf]
      constructor
      · rintro ⟨p, hp, s, hs, h⟩
        simp only [orient, if_true, Prod.mk.injEq] at h
        exact ⟨h.1 ▸ hp, h.2 ▸ hs⟩
      · rintro ⟨hpa, hpb⟩
        exact ⟨pa, hpa, pb, hpb, rfl⟩

/-- C1 witness: the fresh enumeration of a two by two domain. -/
theorem c1_witness :
    (iterPolys true [((0 : ℤ), 1)] [((2 : ℤ), 3)]
        ((setup_metadata [((0 : ℤ), 1)] [((2 : ℤ), 3)] ("x")
            (fun _ => none)).checkpoint).1
        ((setup_metadata [((0 : ℤ), 1)] [((2 : ℤ), 3)] ("x")
            (fun _ => none)).checkpoint).2 =
      (if true then
        pairsOf (pyProduct (expandAxes [((0 : ℤ), 1)]))
          (pyProduct (expandAxes [((2 : ℤ), 3)])) (fun p s => (p, s))
       else
        pairsOf (pyProduct (expandAxes [((2 : ℤ), 3)]))
          (pyProduct (expandAxes [((0 : ℤ), 1)])) (fun p s => (s, p)))) ∧
    (iterPolys true [((0 : ℤ), 1)] [((2 : ℤ), 3)]
        ((setup_metadata [((0 : ℤ), 1)] [((2 : ℤ), 3)] ("x")
            (fun _ => none)).checkpoint).1
        ((setup_metadata [((0 : ℤ), 1)] [((2 : ℤ), 3)] ("x")
            (fun _ => none)).checkpoint).2).Nodup ∧
    (∀ pa pb,
      (pa, pb) ∈ iterPolys true [((0 : ℤ), 1)] [((2 : ℤ), 3)]
          ((setup_metadata [((0 : ℤ), 1)] [((2 : ℤ), 3)] ("x")
              (fun _ => none)).checkpoint).1
          ((setup_metadata [((0 : ℤ), 1)] [((2 : ℤ), 3)] ("x")
              (fun _ => none)).checkpoint).2 ↔
        pa ∈ pyProduct (expandAxes [((0 : ℤ), 1)]) ∧
        pb ∈ pyProduct (expandAxes [((2 : ℤ), 3)])) :=
  c1_fresh_run_exhaustive true [((0 : ℤ), 1)] [((2 : ℤ), 3)] ("x")
    (by simp [axesValid]) (by simp [axesValid])
/-! ## Interrupted runs and resume (claim C2) -/

/-- Mirrors the CHECKPOINT_DUMP_SIZE module constant. -/
def CHECKPOINT_DUMP_SIZE : ℕ := 5000

/-- Values of items_passed at which the loop in iter_polys dumps a
checkpoint during the first k emissions.  The counter items_passed
equals the number of pairs already emitted when the dump test runs, the
test fires on positive multiples of CHECKPOINT_DUMP_SIZE, and the dump
guarding emission number j+1 has executed in an interrupted run exactly
when that emission completed, j < k.  The coordinate dumped there is
the pair emitted at position j (0 indexed), in (a, b) order by
update_checkpoint. -/
def dumpIndices (k : ℕ) : List ℕ :=
  (List.range k).filter (fun j => 1 ≤ j && j % CHECKPOINT_DUMP_SIZE == 0)

/-- The checkpoint pair on disk after an interrupted run that emitted k
pairs of the given emission list: the last dumped coordinate, if any
dump ran at all. -/
def persistedCheckpoint (out : List (List ℤ × List ℤ)) (k : ℕ) :
    Option (List ℤ × List ℤ) :=
  (dumpIndices k).getLast?.bind (fun j => out.get? j)

/-- File system left behind by the interrupted run: update_checkpoint
wrote the json object for the persisted pair under the checkpoint file
name, or nothing was ever written. -/
def persistedFs (name : String) :
    Option (List ℤ × List ℤ) → String → Option FileContent
  | none => fun _ => none
  | some ck => fun m =>
      if m = name then some (FileContent.valid ck.1 ck.2) else none

/-- Resuming after an interruption at k emitted pairs: the domain is
constructed again over the file system the interrupted run left, which
loads the persisted checkpoint (or defaults to the origin), and
iter_polys runs from the loaded checkpoint. -/
def resumeRun (primary : Bool) (aAxes bAxes : List (ℤ × ℤ)) (name : String)
    (k : ℕ) : List (List ℤ × List ℤ) :=
  let out := iterPolys primary aAxes bAxes (freshCk aAxes) (freshCk bAxes)
  let ck := (setup_metadata aAxes bAxes name
      (persistedFs name (persistedCheckpoint out k))).checkpoint
  iterPolys primary aAxes bAxes ck.1 ck.2

/-- Helper: the last entry of a list is a member. -/
theorem mem_of_getLast?_eq (l : List α) (x : α) (h : l.getLast? = some x) :
    x ∈ l := by
  rcases List.mem_getLast?_eq_getLast (Option.mem_def.mpr h) with ⟨hne, hx⟩
  exact hx ▸ List.getLast_mem hne

/-- C2 counterexample: on the 2 by 2 domain with both axes [0, 1],
interrupting the primary a enumeration after k = 2 emitted pairs
persists no checkpoint (the first dump would only guard emission 5001),
so the resumed run restarts from the origin and re-emits both already
emitted pairs: two distinct pairs are duplicated across the two runs,
not at most one. -/
theorem c2_counterexample :
    ((iterPolys true [((0 : ℤ), 1)] [((0 : ℤ), 1)] (freshCk [((0 : ℤ), 1)])
          (freshCk [((0 : ℤ), 1)])).take 2).filter
        (fun p => decide (p ∈ resumeRun true [((0 : ℤ), 1)] [((0 : ℤ), 1)]
          ("ck") 2)) = [([0], [0]), ([0], [1])] ∧
    ¬(([([0], [0]), ([0], [1])] : List (List ℤ × List ℤ)).length ≤ 1) := by
  constructor
  · decide
  · decide
/-- C2 amended: resuming re-emits the suffix of the enumeration from
the persisted checkpoint on: every not yet emitted pair is emitted
again (a superset of the remainder); when no dump ever ran the resumed
run restarts from the origin and replays the whole enumeration (so all
k already emitted pairs are duplicated); when the last dump guarded the
pair at position j, the resumed run is exactly the suffix from j, so
the duplicated pairs are those at positions j to k-1, and exactly one
pair, the checkpointed coordinate, is duplicated precisely when the
interruption happened right after that pair was emitted (k = j + 1). -/
theorem c2_resume (primary : Bool) (aAxes bAxes : List (ℤ × ℤ)) (name : String)
    (k : ℕ) (ha : axesValid aAxes) (hb : axesValid bAxes)
    (hk : k ≤ (freshRun primary aAxes bAxes).length) :
    (∀ p ∈ (freshRun primary aAxes bAxes).drop k,
        p ∈ resumeRun primary aAxes bAxes name k) ∧
    ((dumpIndices k).getLast? = none →
        resumeRun primary aAxes bAxes name k = freshRun primary aAxes bAxes) ∧
    (∀ j, (dumpIndices k).getLast? = some j →
        resumeRun primary aAxes bAxes name k =
          (freshRun primary aAxes bAxes).drop j ∧
        (j + 1 = k →
          ((freshRun primary aAxes bAxes).take k).filter
              (fun p => decide (p ∈ resumeRun primary aAxes bAxes name k)) =
            ((freshRun primary aAxes bAxes).drop j).take 1)) := by
  have hnone : (dumpIndices k).getLast? = none →
      resumeRun primary aAxes bAxes name k = freshRun primary aAxes bAxes := by
    intro h
    simp only [resumeRun, persistedCheckpoint, h, Option.none_bind, persistedFs,
      setup_metadata]
    rfl
  have hsome : ∀ j, (dumpIndices k).getLast? = some j →
      j < k ∧ resumeRun primary aAxes bAxes name k =
        (freshRun primary aAxes bAxes).drop j := by
    intro j hjl
    have hjmem : j ∈ dumpIndices k := mem_of_getLast?_eq _ _ hjl
    have hjk : j < k := by
      simp only [dumpIndices, List.mem_filter, List.mem_range] at hjmem
      exact hjmem.1
    have hjlen : j < (freshRun primary aAxes bAxes).length :=
      lt_of_lt_of_le hjk hk
    refine ⟨hjk, ?_⟩
    have hpc : persistedCheckpoint (freshRun primary aAxes bAxes) k =
        some ((freshRun primary aAxes bAxes).get ⟨j, hjlen⟩) := by
      rw [persistedCheckpoint, hjl]
      simp [List.get?_eq_get hjlen]
    have hres : resumeRun primary aAxes bAxes name k =
        iterPolys primary aAxes bAxes
          ((freshRun primary aAxes bAxes).get ⟨j, hjlen⟩).1
          ((freshRun primary aAxes bAxes).get ⟨j, hjlen⟩).2 := by
      simp only [resumeRun]
      rw [show iterPolys primary aAxes bAxes (freshCk aAxes) (freshCk bAxes) =
          freshRun primary aAxes bAxes from rfl, hpc]
      simp [persistedFs, setup_metadata]
    rw [hres]
    exact iterPolys_from_get primary aAxes bAxes ha hb j hjlen
  refine ⟨?_, hnone, ?_⟩
  · intro p hp
    cases h : (dumpIndices k).getLast? with
    | none => exact (hnone h) ▸ List.drop_subset k _ hp
    | some j =>
        obtain ⟨hjk, hres⟩ := hsome j h
        rw [hres]
        have hdd : (freshRun primary aAxes bAxes).drop k =
            ((freshRun primary aAxes bAxes).drop j).drop (k - j) := by
          rw [List.drop_drop]
          congr 1
          omega
        exact List.drop_subset _ _ (hdd ▸ hp)
  · intro j hjl
    obtain ⟨hjk, hres⟩ := hsome j hjl
    have hjlen : j < (freshRun primary aAxes bAxes).length :=
      lt_of_lt_of_le hjk hk
    refine ⟨hres, ?_⟩
    intro hk1
    have hnd := freshRun_nodup primary aAxes bAxes ha hb
    have hd := drop_eq_get_cons (freshRun primary aAxes bAxes) j hjlen
    have ht : (freshRun primary aAxes bAxes).take (j + 1) =
        (freshRun primary aAxes bAxes).take j ++
          [(freshRun primary aAxes bAxes).get ⟨j, hjlen⟩] := by
      rw [List.take_succ]
      simp [List.getElem?_eq_getElem hjlen, List.get_eq_getElem]
    have hfil1 : ((freshRun primary aAxes bAxes).take j).filter
        (fun p => decide (p ∈ (freshRun primary aAxes bAxes).drop j)) = [] := by
      rw [List.filter_eq_nil_iff]
      intro p hp
      simp only [decide_eq_true_eq]
      exact fun hmem => (List.disjoint_take_drop hnd (le_refl j)) hp hmem
    have hmemj : (freshRun primary aAxes bAxes).get ⟨j, hjlen⟩ ∈
        (freshRun primary aAxes bAxes).drop j := by
      rw [hd]
      exact List.mem_cons_self _ _
    have hfil2 : ([(freshRun primary aAxes bAxes).get ⟨j, hjlen⟩] :
        List (List ℤ × List ℤ)).filter
          (fun p => decide (p ∈ (freshRun primary aAxes bAxes).drop j)) =
        [(freshRun primary aAxes bAxes).get ⟨j, hjlen⟩] := by
      have hmemj2 : (freshRun primary aAxes bAxes)[j] ∈
          (freshRun primary aAxes bAxes).drop j := hmemj
      simp [hmemj2]
    rw [hres, ← hk1, ht, List.filter_append, hfil1, hfil2, List.nil_append, hd]
    rfl

/-- C2 witness: on the 2 by 2 domain interrupted after 2 pairs, a
remaining pair is emitted again by the resumed run. -/
theorem c2_witness :
    ([1], [0]) ∈ resumeRun true [((0 : ℤ), 1)] [((0 : ℤ), 1)] ("ck") 2 :=
  (c2_resume true [((0 : ℤ), 1)] [((0 : ℤ), 1)] ("ck") 2 (by simp [axesValid])
      (by simp [axesValid]) (by decide)).1 ([1], [0]) (by decide)
/-! ## Domain splitting (claim C3) -/

/-- A Cartesian product poly domain as the splitter manipulates it: its
two axis range lists.  All derived metadata is recomputed from them by
_setup_metadata on every deep copy, so it carries no further state
relevant to the split. -/
structure PolyDom where
  aAxes : List (ℤ × ℤ)
  bAxes : List (ℤ × ℤ)
deriving DecidableEq

/-- One record produced by _get_metadata_on_var_ranges: the range, its
size, which series it belongs to (true for a) and its index there. -/
structure AxisMeta where
  range : ℤ × ℤ
  size : ℤ
  series : Bool
  index : ℕ
deriving DecidableEq

/-- Mirrors _get_metadata_on_var_ranges over one series. -/
def seriesMetas (series : Bool) (axes : List (ℤ × ℤ)) : List AxisMeta :=
  (List.finRange axes.length).map
    (fun i => ⟨axes.get i, (axes.get i).2 - (axes.get i).1 + 1, series, i.val⟩)

/-- All axis metadata, a axes first, exactly as
split_domains_to_processes concatenates it. -/
def metasOf (d : PolyDom) : List AxisMeta :=
  seriesMetas true d.aAxes ++ seriesMetas false d.bAxes

/-- Mirrors the Python max with a size key: the first element of
maximal size (max keeps the earlier element on ties). -/
def pyMaxBySize : List AxisMeta → Option AxisMeta
  | [] => none
  | m :: rest =>
      some (rest.foldl (fun best x => if best.size < x.size then x else best) m)

/-- Sizes of the numpy array_split chunks of a length L sequence into n
parts: the first L mod n parts get one extra element. -/
def arraySplitSizes (L n : ℕ) : List ℕ :=
  (List.range n).map (fun i => L / n + if i < L % n then 1 else 0)

/-- Consecutive inclusive integer ranges of the given sizes, starting
at lo; a chunk of size s covers [lo, lo + s - 1]. -/
def chunksFrom (lo : ℤ) : List ℕ → List (ℤ × ℤ)
  | [] => []
  | s :: rest => (lo, lo + (s : ℤ) - 1) :: chunksFrom (lo + (s : ℤ)) rest

/-- The chunk ranges [chunk_items[0], chunk_items[-1]] that array_split
produces on range(lo, hi + 1). -/
def arraySplitChunks (lo hi : ℤ) (n : ℕ) : List (ℤ × ℤ) :=
  chunksFrom lo (arraySplitSizes (hi + 1 - lo).toNat n)

/-- The deep copy with only the split axis range replaced. -/
def replaceAxis (d : PolyDom) (m : AxisMeta) (r : ℤ × ℤ) : PolyDom :=
  if m.series then ⟨d.aAxes.set m.index r, d.bAxes⟩
  else ⟨d.aAxes, d.bAxes.set m.index r⟩

/-- Option valued traversal of a list, mirroring the Python loop that
splits every sub domain recursively: the whole call fails when any
recursive call fails. -/
def mapMOption (f : α → Option β) : List α → Option (List β)
  | [] => some []
  | x :: rest =>
      match f x, mapMOption f rest with
      | some y, some ys => some (y :: ys)
      | _, _ => none

/-- Mirrors split_domains_to_processes.  The fuel argument only bounds
the recursion depth: the Python recursion never terminates on a domain
whose axes are all singletons when more than one instance is requested
(the recursive call repeats the same arguments), and a none result
models exactly the runs that exhaust every fuel bound. -/
def splitFuel : ℕ → PolyDom → ℕ → Option (List PolyDom)
  | 0, _, _ => none
  | fuel + 1, d, n =>
      match pyMaxBySize (metasOf d) with
      | none => none
      | some biggest =>
          let numSub := min (n : ℤ) biggest.size
          let chunks := arraySplitChunks biggest.range.1 biggest.range.2
            numSub.toNat
          let subs := chunks.map (fun c => replaceAxis d biggest c)
          if biggest.size < (n : ℤ) then
            match mapMOption (fun p => splitFuel fuel p.2 p.1)
                ((arraySplitSizes n subs.length).zip subs) with
            | none => none
            | some results => some results.flatten
          else
            some subs

/-- Membership of an integer in an inclusive axis range. -/
def inAxisRange (r : ℤ × ℤ) (x : ℤ) : Bool :=
  decide (r.1 ≤ x) && decide (x ≤ r.2)

/-- Membership of a coefficient tuple in an axis list: same length and
every entry inside its axis range. -/
def tupleInAxes : List (ℤ × ℤ) → List ℤ → Bool
  | [], [] => true
  | r :: axes, x :: t => inAxisRange r x && tupleInAxes axes t
  | _, _ => false

/-- Membership of a coefficient pair in a domain: the set of pairs the
domain stands for, the Cartesian product of its two axis lists. -/
def pairInDom (d : PolyDom) (ab : List ℤ × List ℤ) : Bool :=
  tupleInAxes d.aAxes ab.1 && tupleInAxes d.bAxes ab.2

/-- Two domains hold no common coefficient pair. -/
def domDisjoint (s t : PolyDom) : Prop :=
  ∀ ab, ¬(pairInDom s ab = true ∧ pairInDom t ab = true)

/-- The sub domains partition d: their pair sets are pairwise disjoint
and their union is exactly the pair set of d. -/
def coversExactly (subs : List PolyDom) (d : PolyDom) : Prop :=
  (∀ ab, pairInDom d ab = true ↔ ∃ s ∈ subs, pairInDom s ab = true) ∧
  subs.Pairwise domDisjoint

/-- Structural well formedness of a domain: valid axis ranges on both
series and at least one a axis (every constructed domain has a_deg + 1
of them). -/
def axesOK (d : PolyDom) : Prop :=
  axesValid d.aAxes ∧ axesValid d.bAxes ∧ d.aAxes ≠ []
/-- Helper: unfolded membership in an axis range. -/
theorem inAxisRange_iff (r : ℤ × ℤ) (x : ℤ) :
    inAxisRange r x = true ↔ r.1 ≤ x ∧ x ≤ r.2 := by
  simp [inAxisRange]

/-- Helper: the head start of every chunk is at least the running
start. -/
theorem chunksFrom_lb :
    ∀ (sizes : List ℕ) (lo : ℤ) (c : ℤ × ℤ), c ∈ chunksFrom lo sizes → lo ≤ c.1
  | [], lo, c, h => by simp [chunksFrom] at h
  | s :: rest, lo, c, h => by
      rcases List.mem_cons.mp h with rfl | h2
      · simp
      · have := chunksFrom_lb rest (lo + (s : ℤ)) c h2
        omega

/-- Helper: chunks of positive sizes cover exactly the interval from lo
of the total length. -/
theorem chunksFrom_cover :
    ∀ (sizes : List ℕ) (lo x : ℤ), (∀ s ∈ sizes, 1 ≤ s) →
      ((∃ c ∈ chunksFrom lo sizes, inAxisRange c x = true) ↔
        (lo ≤ x ∧ x ≤ lo + (sizes.sum : ℤ) - 1))
  | [], lo, x, _ => by
      simp only [chunksFrom, List.sum_nil, Nat.cast_zero]
      constructor
      · rintro ⟨c, hc, _⟩
        simp at hc
      · intro hx
        exact absurd hx (by omega)
  | s :: rest, lo, x, hpos => by
      have hrest := chunksFrom_cover rest (lo + (s : ℤ)) x
        (fun q hq => hpos q (by simp [hq]))
      have hs : 1 ≤ s := hpos s (by simp)
      simp only [chunksFrom, List.mem_cons, List.sum_cons, Nat.cast_add]
      constructor
      · rintro ⟨c, rfl | hc, hin⟩
        · rw [inAxisRange_iff] at hin
          simp only at hin
          omega
        · have := hrest.mp ⟨c, hc, hin⟩
          omega
      · intro hx
        by_cases hcase : x ≤ lo + (s : ℤ) - 1
        · refine ⟨(lo, lo + (s : ℤ) - 1), Or.inl rfl, ?_⟩
          rw [inAxisRange_iff]
          constructor
          · exact hx.1
          · exact hcase
        · rcases hrest.mpr (by omega) with ⟨c, hc, hin⟩
          exact ⟨c, Or.inr hc, hin⟩

/-- Helper: distinct chunks hold no common value. -/
theorem chunksFrom_disjoint :
    ∀ (sizes : List ℕ) (lo : ℤ),
      (chunksFrom lo sizes).Pairwise
        (fun c1 c2 => ∀ x, ¬(inAxisRange c1 x = true ∧ inAxisRange c2 x = true))
  | [], lo => by simp [chunksFrom]
  | s :: rest, lo => by
      rw [chunksFrom, List.pairwise_cons]
      constructor
      · intro c hc x hx
        rw [inAxisRange_iff, inAxisRange_iff] at hx
        have hlb := chunksFrom_lb rest (lo + (s : ℤ)) c hc
        simp only at hx
        omega
      · exact chunksFrom_disjoint rest (lo + (s : ℤ))

/-- Helper: every chunk of positive sizes is a valid range. -/
theorem chunksFrom_valid :
    ∀ (sizes : List ℕ) (lo : ℤ), (∀ s ∈ sizes, 1 ≤ s) →
      ∀ c ∈ chunksFrom lo sizes, c.1 ≤ c.2
  | [], lo, _, c, hc => by simp [chunksFrom] at hc
  | s :: rest, lo, hpos, c, hc => by
      rcases List.mem_cons.mp hc with rfl | h2
      · have := hpos s (by simp)
        simp only
        omega
      · exact chunksFrom_valid rest (lo + (s : ℤ))
          (fun q hq => hpos q (by simp [hq])) c h2

/-- Helper: number of chunks. -/
theorem chunksFrom_length :
    ∀ (sizes : List ℕ) (lo : ℤ), (chunksFrom lo sizes).length = sizes.length
  | [], _ => rfl
  | s :: rest, lo => by
      simp [chunksFrom, chunksFrom_length rest (lo + (s : ℤ))]

/-- Helper: number of array_split parts. -/
theorem arraySplitSizes_length (L n : ℕ) : (arraySplitSizes L n).length = n := by
  simp [arraySplitSizes]

/-- Helper: sum of the ite indicator over an initial range. -/
theorem sum_range_const_ite (a m : ℕ) :
    ∀ n, (((List.range n).map (fun i => a + if i < m then 1 else 0)).sum =
      n * a + min m n)
  | 0 => by simp
  | n + 1 => by
      rw [List.range_succ, List.map_append, List.sum_append,
        sum_range_const_ite a m n]
      by_cases h : n < m
      · simp only [List.map_cons, List.map_nil, List.sum_cons, List.sum_nil,
          if_pos h]
        rw [Nat.succ_mul]
        omega
      · simp only [List.map_cons, List.map_nil, List.sum_cons, List.sum_nil,
          if_neg h]
        rw [Nat.succ_mul]
        omega

/-- Helper: the array_split part sizes add up to the whole length. -/
theorem arraySplitSizes_sum (L n : ℕ) (hn : 1 ≤ n) :
    (arraySplitSizes L n).sum = L := by
  rw [arraySplitSizes, sum_range_const_ite]
  have hmod : L % n < n := Nat.mod_lt _ hn
  have hdm : n * (L / n) + L % n = L := Nat.div_add_mod L n
  omega

/-- Helper: with no more parts than elements every part is nonempty. -/
theorem arraySplitSizes_pos (L n : ℕ) (hn : 1 ≤ n) (hnL : n ≤ L) :
    ∀ s ∈ arraySplitSizes L n, 1 ≤ s := by
  intro s hs
  rcases List.mem_map.mp hs with ⟨i, _, rfl⟩
  have h1 : 1 ≤ L / n := (Nat.one_le_div_iff hn).mpr hnL
  by_cases h : i < L % n
  · simp only [if_pos h]
    omega
  · simp only [if_neg h]
    omega
/-- Helper: chunks that jointly cover an axis range transfer tuple
membership through replacing that axis. -/
theorem setAxis_cover :
    ∀ (axes : List (ℤ × ℤ)) (k : ℕ) (hk : k < axes.length)
      (chunks : List (ℤ × ℤ)),
      (∀ x, (∃ c ∈ chunks, inAxisRange c x = true) ↔
        inAxisRange (axes.get ⟨k, hk⟩) x = true) →
      ∀ t, (tupleInAxes axes t = true ↔
        ∃ c ∈ chunks, tupleInAxes (axes.set k c) t = true)
  | [], k, hk, chunks, hcov, t => by simp at hk
  | r :: axes, 0, hk, chunks, hcov, [] => by
      simp [tupleInAxes, List.set_cons_zero]
  | r :: axes, 0, hk, chunks, hcov, x :: t => by
      simp only [List.set_cons_zero, tupleInAxes, Bool.and_eq_true]
      simp only [List.get] at hcov
      constructor
      · rintro ⟨hx, ht⟩
        rcases (hcov x).mpr hx with ⟨c, hc, hcx⟩
        exact ⟨c, hc, hcx, ht⟩
      · rintro ⟨c, hc, hcx, ht⟩
        exact ⟨(hcov x).mp ⟨c, hc, hcx⟩, ht⟩
  | r :: axes, k + 1, hk, chunks, hcov, [] => by
      simp [tupleInAxes, List.set_cons_succ]
  | r :: axes, k + 1, hk, chunks, hcov, x :: t => by
      simp only [List.set_cons_succ, tupleInAxes, Bool.and_eq_true]
      have hk2 : k < axes.length := by simpa using hk
      have hcov2 : ∀ y, (∃ c ∈ chunks, inAxisRange c y = true) ↔
          inAxisRange (axes.get ⟨k, hk2⟩) y = true := by
        intro y
        simpa only [List.get_cons_succ] using hcov y
      have ih := setAxis_cover axes k hk2 chunks hcov2 t
      constructor
      · rintro ⟨hx, ht⟩
        rcases ih.mp ht with ⟨c, hc, hct⟩
        exact ⟨c, hc, hx, hct⟩
      · rintro ⟨c, hc, hx, hct⟩
        exact ⟨hx, ih.mpr ⟨c, hc, hct⟩⟩

/-- Helper: replacing one axis by value disjoint ranges produces
domains with disjoint tuple sets. -/
theorem setAxis_disjoint :
    ∀ (axes : List (ℤ × ℤ)) (k : ℕ), k < axes.length →
      ∀ (c1 c2 : ℤ × ℤ),
      (∀ x, ¬(inAxisRange c1 x = true ∧ inAxisRange c2 x = true)) →
      ∀ t, ¬(tupleInAxes (axes.set k c1) t = true ∧
          tupleInAxes (axes.set k c2) t = true)
  | [], k, hk, _, _, _, _ => by simp at hk
  | r :: axes, 0, hk, c1, c2, hdis, [] => by simp [tupleInAxes]
  | r :: axes, 0, hk, c1, c2, hdis, x :: t => by
      simp only [List.set_cons_zero, tupleInAxes, Bool.and_eq_true]
      rintro ⟨⟨h1, _⟩, ⟨h2, _⟩⟩
      exact hdis x ⟨h1, h2⟩
  | r :: axes, k + 1, hk, c1, c2, hdis, [] => by simp [tupleInAxes]
  | r :: axes, k + 1, hk, c1, c2, hdis, x :: t => by
      simp only [List.set_cons_succ, tupleInAxes, Bool.and_eq_true]
      rintro ⟨⟨_, h1⟩, ⟨_, h2⟩⟩
      exact setAxis_disjoint axes k (by simpa using hk) c1 c2 hdis t ⟨h1, h2⟩

/-- Helper: valid ranges survive a replacement by a valid range. -/
theorem axesValid_set (axes : List (ℤ × ℤ)) (k : ℕ) (c : ℤ × ℤ)
    (hv : axesValid axes) (hc : c.1 ≤ c.2) : axesValid (axes.set k c) := by
  intro r hr
  rcases List.mem_or_eq_of_mem_set hr with h | rfl
  · exact hv r h
  · exact hc

/-- Helper: the metadata list describes the axes faithfully. -/
theorem metasOf_sound (d : PolyDom) : ∀ m ∈ metasOf d,
    (if m.series then d.aAxes else d.bAxes).get? m.index = some m.range ∧
    m.size = m.range.2 - m.range.1 + 1 := by
  intro m hm
  rcases List.mem_append.mp hm with h | h
  · rcases List.mem_map.mp h with ⟨i, _, rfl⟩
    simp only [if_true]
    exact ⟨List.get?_eq_get i.isLt, trivial⟩
  · rcases List.mem_map.mp h with ⟨i, _, rfl⟩
    simp only [Bool.false_eq_true, if_false]
    exact ⟨List.get?_eq_get i.isLt, trivial⟩

/-- Helper: a fold that always keeps one of its two arguments lands on
the seed or a list member. -/
theorem foldl_choice :
    ∀ (l : List AxisMeta) (b : AxisMeta),
      (l.foldl (fun best x => if best.size < x.size then x else best) b) = b ∨
      (l.foldl (fun best x => if best.size < x.size then x else best) b) ∈ l
  | [], b => Or.inl rfl
  | x :: rest, b => by
      simp only [List.foldl_cons]
      rcases foldl_choice rest (if b.size < x.size then x else b) with h | h
      · rw [h]
        by_cases hx : b.size < x.size
        · exact Or.inr (by simp [if_pos hx])
        · exact Or.inl (by simp [if_neg hx])
      · exact Or.inr (List.mem_cons_of_mem x h)

/-- Helper: the Python max returns a member of the list. -/
theorem pyMaxBySize_mem (l : List AxisMeta) (m : AxisMeta)
    (h : pyMaxBySize l = some m) : m ∈ l := by
  cases l with
  | nil => simp [pyMaxBySize] at h
  | cons x rest =>
      simp only [pyMaxBySize, Option.some.injEq] at h
      rcases foldl_choice rest x with h2 | h2
      · rw [← h, h2]
        exact List.mem_cons_self x rest
      · exact List.mem_cons_of_mem x (h ▸ h2)

/-- Helper: an elementwise successful traversal succeeds elementwise. -/
theorem mapMOption_some {f : α → Option β} :
    ∀ (l : List α) (res : List β), mapMOption f l = some res →
      res.length = l.length ∧
      ∀ i (h1 : i < l.length) (h2 : i < res.length),
        f (l.get ⟨i, h1⟩) = some (res.get ⟨i, h2⟩)
  | [], res, h => by
      simp only [mapMOption, Option.some.injEq] at h
      subst h
      exact ⟨rfl, fun i h1 h2 => by simp at h1⟩
  | x :: rest, res, h => by
      simp only [mapMOption] at h
      cases hx : f x with
      | none => rw [hx] at h; simp at h
      | some y =>
          rw [hx] at h
          cases hrest : mapMOption f rest with
          | none => rw [hrest] at h; simp at h
          | some ys =>
              rw [hrest] at h
              simp only [Option.some.injEq] at h
              subst h
              obtain ⟨hlen, hpt⟩ := mapMOption_some rest ys hrest
              refine ⟨by simp [hlen], ?_⟩
              intro i h1 h2
              cases i with
              | zero => simpa using hx
              | succ i =>
                  simp only [List.get_cons_succ]
                  exact hpt i (by simpa using h1) (by simpa using h2)
/-- Helper: replacing the selected axis by each chunk of a partition of
that axis yields sub domains that partition d. -/
theorem replace_covers (d : PolyDom) (m : AxisMeta) (hm : m ∈ metasOf d)
    (chunks : List (ℤ × ℤ))
    (hcov : ∀ x, (∃ c ∈ chunks, inAxisRange c x = true) ↔
      inAxisRange m.range x = true)
    (hdisj : chunks.Pairwise
      (fun c1 c2 => ∀ x, ¬(inAxisRange c1 x = true ∧ inAxisRange c2 x = true))) :
    coversExactly (chunks.map (replaceAxis d m)) d := by
  obtain ⟨hget, _⟩ := metasOf_sound d m hm
  cases hser : m.series with
  | true =>
      rw [hser] at hget
      simp only [eq_self_iff_true, if_true] at hget
      have hrep : ∀ c, replaceAxis d m c =
          PolyDom.mk (d.aAxes.set m.index c) d.bAxes := by
        intro c
        simp [replaceAxis, hser]
      obtain ⟨hk, hgeq⟩ := List.get?_eq_some.mp hget
      have hcov2 : ∀ x, (∃ c ∈ chunks, inAxisRange c x = true) ↔
          inAxisRange (d.aAxes.get ⟨m.index, hk⟩) x = true := by
        intro x
        rw [hgeq]
        exact hcov x
      constructor
      · intro ab
        have htr := setAxis_cover d.aAxes m.index hk chunks hcov2 ab.1
        simp only [pairInDom, Bool.and_eq_true]
        constructor
        · rintro ⟨h1, h2⟩
          rcases htr.mp h1 with ⟨c, hc, hct⟩
          refine ⟨replaceAxis d m c, List.mem_map_of_mem _ hc, ?_⟩
          simp only [hrep, pairInDom, Bool.and_eq_true]
          exact ⟨hct, h2⟩
        · rintro ⟨s, hs, hps⟩
          rcases List.mem_map.mp hs with ⟨c, hc, rfl⟩
          simp only [hrep, pairInDom, Bool.and_eq_true] at hps
          exact ⟨htr.mpr ⟨c, hc, hps.1⟩, hps.2⟩
      · rw [List.pairwise_map]
        refine hdisj.imp ?_
        intro c1 c2 hx ab hab
        simp only [hrep, pairInDom, Bool.and_eq_true] at hab
        exact setAxis_disjoint d.aAxes m.index hk c1 c2 hx ab.1
          ⟨hab.1.1, hab.2.1⟩
  | false =>
      rw [hser] at hget
      simp only [Bool.false_eq_true, if_false] at hget
      have hrep : ∀ c, replaceAxis d m c =
          PolyDom.mk d.aAxes (d.bAxes.set m.index c) := by
        intro c
        simp [replaceAxis, hser]
      obtain ⟨hk, hgeq⟩ := List.get?_eq_some.mp hget
      have hcov2 : ∀ x, (∃ c ∈ chunks, inAxisRange c x = true) ↔
          inAxisRange (d.bAxes.get ⟨m.index, hk⟩) x = true := by
        intro x
        rw [hgeq]
        exact hcov x
      constructor
      · intro ab
        have htr := setAxis_cover d.bAxes m.index hk chunks hcov2 ab.2
        simp only [pairInDom, Bool.and_eq_true]
        constructor
        · rintro ⟨h1, h2⟩
          rcases htr.mp h2 with ⟨c, hc, hct⟩
          refine ⟨replaceAxis d m c, List.mem_map_of_mem _ hc, ?_⟩
          simp only [hrep, pairInDom, Bool.and_eq_true]
          exact ⟨h1, hct⟩
        · rintro ⟨s, hs, hps⟩
          rcases List.mem_map.mp hs with ⟨c, hc, rfl⟩
          simp only [hrep, pairInDom, Bool.and_eq_true] at hps
          exact ⟨hps.1, htr.mpr ⟨c, hc, hps.2⟩⟩
      · rw [List.pairwise_map]
        refine hdisj.imp ?_
        intro c1 c2 hx ab hab
        simp only [hrep, pairInDom, Bool.and_eq_true] at hab
        exact setAxis_disjoint d.bAxes m.index hk c1 c2 hx ab.2
          ⟨hab.1.2, hab.2.2⟩
/-- Helper: every pair of a sub domain of a partition lies in the
partitioned domain. -/
theorem covers_sub {subs : List PolyDom} {d : PolyDom}
    (hcov : coversExactly subs d) :
    ∀ s ∈ subs, ∀ ab, pairInDom s ab = true → pairInDom d ab = true :=
  fun s hs ab hab => (hcov.1 ab).mpr ⟨s, hs, hab⟩

/-- Helper: partitions of the members of a partition of d flatten to a
partition of d. -/
theorem covers_compose (d : PolyDom) (subs : List PolyDom)
    (results : List (List PolyDom))
    (hlen : results.length = subs.length)
    (hcov : coversExactly subs d)
    (heach : ∀ i (h1 : i < results.length) (h2 : i < subs.length),
      coversExactly (results.get ⟨i, h1⟩) (subs.get ⟨i, h2⟩)) :
    coversExactly results.flatten d := by
  constructor
  · intro ab
    rw [hcov.1 ab]
    constructor
    · rintro ⟨s, hs, hps⟩
      rcases List.mem_iff_get.mp hs with ⟨i, rfl⟩
      have hi1 : i.val < results.length := by omega
      rcases ((heach i.val hi1 i.isLt).1 ab).mp hps with ⟨s2, hs2, hps2⟩
      refine ⟨s2, ?_, hps2⟩
      rw [List.mem_flatten]
      exact ⟨results.get ⟨i.val, hi1⟩, List.get_mem _ _ _, hs2⟩
    · rintro ⟨s2, hs2, hps2⟩
      rcases List.mem_flatten.mp hs2 with ⟨l, hl, hs2l⟩
      rcases List.mem_iff_get.mp hl with ⟨i, rfl⟩
      have hi2 : i.val < subs.length := by omega
      refine ⟨subs.get ⟨i.val, hi2⟩, List.get_mem _ _ _, ?_⟩
      exact ((heach i.val i.isLt hi2).1 ab).mpr ⟨s2, hs2l, hps2⟩
  · rw [List.pairwise_flatten]
    constructor
    · intro l hl
      rcases List.mem_iff_get.mp hl with ⟨i, rfl⟩
      have hi2 : i.val < subs.length := by omega
      exact (heach i.val i.isLt hi2).2
    · rw [List.pairwise_iff_get]
      intro i j hij x hx y hy ab hab
      have hi2 : i.val < subs.length := by omega
      have hj2 : j.val < subs.length := by omega
      have hxd : pairInDom (subs.get ⟨i.val, hi2⟩) ab = true :=
        covers_sub (heach i.val i.isLt hi2) x hx ab hab.1
      have hyd : pairInDom (subs.get ⟨j.val, hj2⟩) ab = true :=
        covers_sub (heach j.val j.isLt hj2) y hy ab hab.2
      have hsp := List.pairwise_iff_get.mp hcov.2 ⟨i.val, hi2⟩ ⟨j.val, hj2⟩
        (by simpa using hij)
      exact hsp ab ⟨hxd, hyd⟩

/-- Helper: replacing an axis by a valid chunk preserves domain well
formedness. -/
theorem replace_axesOK (d : PolyDom) (m : AxisMeta) (c : ℤ × ℤ)
    (hok : axesOK d) (hc : c.1 ≤ c.2) : axesOK (replaceAxis d m c) := by
  obtain ⟨hva, hvb, hne⟩ := hok
  cases hser : m.series with
  | true =>
      have hrep : replaceAxis d m c =
          PolyDom.mk (d.aAxes.set m.index c) d.bAxes := by
        simp [replaceAxis, hser]
      rw [hrep]
      refine ⟨axesValid_set _ _ _ hva hc, hvb, ?_⟩
      intro h
      have hlen := congrArg List.length h
      simp only [List.length_set, List.length_nil] at hlen
      exact hne (List.length_eq_zero.mp hlen)
  | false =>
      have hrep : replaceAxis d m c =
          PolyDom.mk d.aAxes (d.bAxes.set m.index c) := by
        simp [replaceAxis, hser]
      rw [hrep]
      exact ⟨hva, axesValid_set _ _ _ hvb hc, hne⟩
/-- C3 amended, main part: whenever split_domains_to_processes returns
(any fuel bound on the recursion suffices), the returned sub domains
have pairwise disjoint pair sets whose union is exactly the pair set of
the original domain. -/
theorem c3_split_partition :
    ∀ (fuel : ℕ) (d : PolyDom) (n : ℕ) (subs : List PolyDom),
      1 ≤ n → axesOK d → splitFuel fuel d n = some subs →
      coversExactly subs d := by
  intro fuel
  induction fuel with
  | zero =>
      intro d n subs _ _ h
      simp [splitFuel] at h
  | succ fuel ih =>
      intro d n subs hn hok h
      simp only [splitFuel] at h
      split at h
      · exact absurd h (by simp)
      · rename_i biggest hmax
        have hmem : biggest ∈ metasOf d := pyMaxBySize_mem _ _ hmax
        obtain ⟨hget, hsize⟩ := metasOf_sound d biggest hmem
        have hrange_mem : biggest.range ∈
            (if biggest.series then d.aAxes else d.bAxes) := List.get?_mem hget
        have hrv : biggest.range.1 ≤ biggest.range.2 := by
          cases hser : biggest.series
          · rw [hser] at hrange_mem
            simp only [Bool.false_eq_true, if_false] at hrange_mem
            exact hok.2.1 _ hrange_mem
          · rw [hser] at hrange_mem
            simp only [if_true] at hrange_mem
            exact hok.1 _ hrange_mem
        have hsz1 : (1 : ℤ) ≤ biggest.size := by
          rw [hsize]
          omega
        have hLcast : (((biggest.range.2 + 1 - biggest.range.1).toNat : ℕ) : ℤ) =
            biggest.size := by
          rw [hsize]
          omega
        have hns1 : 1 ≤ (min (n : ℤ) biggest.size).toNat := by omega
        have hnsL : (min (n : ℤ) biggest.size).toNat ≤
            (biggest.range.2 + 1 - biggest.range.1).toNat := by omega
        have hpos : ∀ s ∈ arraySplitSizes
            (biggest.range.2 + 1 - biggest.range.1).toNat
            (min (n : ℤ) biggest.size).toNat, 1 ≤ s :=
          arraySplitSizes_pos _ _ hns1 hnsL
        have hsum : (arraySplitSizes
            (biggest.range.2 + 1 - biggest.range.1).toNat
            (min (n : ℤ) biggest.size).toNat).sum =
            (biggest.range.2 + 1 - biggest.range.1).toNat :=
          arraySplitSizes_sum _ _ hns1
        have hcov : ∀ x, (∃ c ∈ arraySplitChunks biggest.range.1
            biggest.range.2 (min (n : ℤ) biggest.size).toNat,
              inAxisRange c x = true) ↔
            inAxisRange biggest.range x = true := by
          intro x
          rw [arraySplitChunks, chunksFrom_cover _ _ x hpos, hsum,
            inAxisRange_iff]
          omega
        have hdisj := chunksFrom_disjoint (arraySplitSizes
          (biggest.range.2 + 1 - biggest.range.1).toNat
          (min (n : ℤ) biggest.size).toNat) biggest.range.1
        have hbase : coversExactly
            ((arraySplitChunks biggest.range.1 biggest.range.2
              (min (n : ℤ) biggest.size).toNat).map (replaceAxis d biggest)) d :=
          replace_covers d biggest hmem _ hcov (by rw [arraySplitChunks]; exact hdisj)
        split at h
        · rename_i hlt
          split at h
          · exact absurd h (by simp)
          · rename_i results hmm2
            simp only [Option.some.injEq] at h
            subst h
            obtain ⟨hrlen, hpt⟩ := mapMOption_some _ results hmm2
            have hchlen : (arraySplitChunks biggest.range.1 biggest.range.2
                (min (n : ℤ) biggest.size).toNat).length =
                (min (n : ℤ) biggest.size).toNat := by
              rw [arraySplitChunks, chunksFrom_length, arraySplitSizes_length]
            have hs0len : ((arraySplitChunks biggest.range.1 biggest.range.2
                (min (n : ℤ) biggest.size).toNat).map
                  (fun c => replaceAxis d biggest c)).length =
                (min (n : ℤ) biggest.size).toNat := by
              rw [List.length_map, hchlen]
            have hzlen : ((arraySplitSizes n ((arraySplitChunks biggest.range.1
                biggest.range.2 (min (n : ℤ) biggest.size).toNat).map
                  (fun c => replaceAxis d biggest c)).length).zip
                ((arraySplitChunks biggest.range.1 biggest.range.2
                  (min (n : ℤ) biggest.size).toNat).map
                    (fun c => replaceAxis d biggest c))).length =
                (min (n : ℤ) biggest.size).toNat := by
              rw [List.length_zip, arraySplitSizes_length, hs0len]
              exact min_self _
            refine covers_compose d _ results ?_ hbase ?_
            · rw [hrlen, hzlen, hs0len]
            · intro i h1 h2
              have hi2 : i < ((arraySplitSizes n ((arraySplitChunks
                  biggest.range.1 biggest.range.2
                  (min (n : ℤ) biggest.size).toNat).map
                    (fun c => replaceAxis d biggest c)).length).zip
                  ((arraySplitChunks biggest.range.1 biggest.range.2
                    (min (n : ℤ) biggest.size).toNat).map
                      (fun c => replaceAxis d biggest c))).length := by
                rw [hzlen]
                rw [hs0len] at h2
                exact h2
              have hf := hpt i hi2 h1
              rw [List.get_zip] at hf
              refine ih _ _ _ ?_ ?_ hf
              · -- every slot count is at least one
                apply arraySplitSizes_pos n _ ?_ ?_ _ (List.get_mem _ _ _)
                · rw [hs0len]
                  exact hns1
                · rw [hs0len]
                  omega
              · -- every sub domain is well formed
                have hmem2 := List.get_mem ((arraySplitChunks biggest.range.1
                  biggest.range.2 (min (n : ℤ) biggest.size).toNat).map
                    (fun c => replaceAxis d biggest c)) i (by omega)
                rcases List.mem_map.mp hmem2 with ⟨c, hc, heq⟩
                rw [← heq]
                refine replace_axesOK d biggest c hok ?_
                rw [arraySplitChunks] at hc
                exact chunksFrom_valid _ _ hpos c hc
        · rename_i hge
          simp only [Option.some.injEq] at h
          subst h
          exact hbase

/-- C3 counterexample: splitting the 2 by 2 domain with both axes
[0, 1] into 3 workers recursively narrows both axes of the first two
sub domains, contradicting the claim that every sub domain differs from
the original only in a single contiguous sub interval of one axis. -/
theorem c3_counterexample :
    splitFuel 4 (PolyDom.mk [(0, 1)] [(0, 1)]) 3 =
      some [PolyDom.mk [(0, 0)] [(0, 0)], PolyDom.mk [(0, 0)] [(1, 1)],
        PolyDom.mk [(1, 1)] [(0, 1)]] ∧
    (PolyDom.mk [((0 : ℤ), 0)] [((0 : ℤ), 0)]).aAxes ≠
      (PolyDom.mk [((0 : ℤ), 1)] [((0 : ℤ), 1)]).aAxes ∧
    (PolyDom.mk [((0 : ℤ), 0)] [((0 : ℤ), 0)]).bAxes ≠
      (PolyDom.mk [((0 : ℤ), 1)] [((0 : ℤ), 1)]).bAxes := by
  refine ⟨by decide, by decide, by decide⟩

/-- C3 witness: the partition property at the counterexample instance,
3 workers on the 2 by 2 domain. -/
theorem c3_witness :
    coversExactly [PolyDom.mk [((0 : ℤ), 0)] [((0 : ℤ), 0)],
      PolyDom.mk [((0 : ℤ), 0)] [((1 : ℤ), 1)],
      PolyDom.mk [((1 : ℤ), 1)] [((0 : ℤ), 1)]]
      (PolyDom.mk [((0 : ℤ), 1)] [((0 : ℤ), 1)]) :=
  c3_split_partition 4 (PolyDom.mk [(0, 1)] [(0, 1)]) 3 _ (by decide)
    ⟨by simp [axesValid], by simp [axesValid], by decide⟩ (by decide)
